import Mathlib

/-!
Verification of the game-player core: the transposition table
(`src/transposition_table.rs`) and the minimax/alpha-beta search driver
(`src/game_tree.rs`), shallowly embedded in Lean.

Modelling choices:
* `f32` values are modelled as `WithBot (WithTop ℤ)`: finite values are
  integers, `⊥` is `-f32::INFINITY`, `⊤` is `f32::INFINITY`.  The driver and
  the table only copy and compare values, never do arithmetic on them.
* `u64` fingerprints are `Nat` with the reserved sentinel `2 ^ 64 - 1`
  (`u64::MAX`); `i16` qualities and `i32` depths are `Int` (the claims under
  study do not concern integer overflow).
* Rust's in-place mutation of the table becomes explicit state passing:
  every operation returns the new table.
* The recursion of `alice_search` / `bob_search` (bounded by
  `max_depth - depth`) is driven by an explicit fuel parameter consumed at
  every ply; `find_best_response` supplies `max_depth.toNat + 1` fuel, which
  is more than the recursion can consume, so the out-of-fuel branch is
  unreachable in the modelled entry point.
-/

/-- Values: finite 32-bit floats plus the two infinities used by the driver. -/
abbrev Val : Type := WithBot (WithTop ℤ)

/-- Embeds a finite (integer) value into `Val`. -/
def fv (x : ℤ) : Val := ((x : WithTop ℤ) : Val)

/-- Table entry, from `transposition_table.rs` (`struct Entry`). -/
structure Entry where
  fingerprint : Nat
  value : Val
  q : Int
  age : Int
deriving DecidableEq

/-- The reserved fingerprint `u64::MAX` marking a vacant slot (`Entry::UNUSED`). -/
def Entry.UNUSED : Nat := 2 ^ 64 - 1

/-- The default (vacant) entry (`impl Default for Entry`). -/
def Entry.dflt : Entry := ⟨Entry.UNUSED, fv 0, 0, 0⟩

/-- The transposition table: a fixed array of entries plus the maximum age
(`struct TranspositionTable`). -/
structure TranspositionTable where
  table : List Entry
  max_age : Int
deriving DecidableEq

namespace TranspositionTable

/-- Slot index for a fingerprint (`fn find`): direct modulo hashing, one probe. -/
def find (t : TranspositionTable) (hash : Nat) : Nat :=
  hash % t.table.length

/-- A fresh table of `size` vacant entries (`TranspositionTable::new`). -/
def new (size : Nat) (max_age : Int) : TranspositionTable :=
  ⟨List.replicate size Entry.dflt, max_age⟩

/-- `TranspositionTable::check`: one probe at `fingerprint mod N`.  On a
fingerprint match the age is reset to 0 (even when the quality filter then
reports a miss); on a fingerprint mismatch the table is untouched. -/
def check (t : TranspositionTable) (fingerprint : Nat) (min_q : Int) :
    Option (Val × Int) × TranspositionTable :=
  let i := t.find fingerprint
  let e := t.table.getD i Entry.dflt
  if e.fingerprint ≠ fingerprint then
    (none, t)
  else
    let t' : TranspositionTable := ⟨t.table.set i { e with age := 0 }, t.max_age⟩
    if 0 ≤ min_q ∧ e.q < min_q then
      (none, t')
    else
      (some (e.value, e.q), t')

/-- `TranspositionTable::update`: overwrite the probed slot iff it is vacant
or the new quality is at least the incumbent's, regardless of fingerprints. -/
def update (t : TranspositionTable) (fingerprint : Nat) (value : Val) (quality : Int) :
    TranspositionTable :=
  let i := t.find fingerprint
  let e := t.table.getD i Entry.dflt
  if e.fingerprint = Entry.UNUSED ∨ quality ≥ e.q then
    ⟨t.table.set i ⟨fingerprint, value, quality, 0⟩, t.max_age⟩
  else
    t

/-- `TranspositionTable::set`: unconditional overwrite of the probed slot. -/
def set (t : TranspositionTable) (fingerprint : Nat) (value : Val) (quality : Int) :
    TranspositionTable :=
  let i := t.find fingerprint
  ⟨t.table.set i ⟨fingerprint, value, quality, 0⟩, t.max_age⟩

/-- One aging step of a single entry (body of the closure in
`TranspositionTable::age`): vacant entries are skipped, live entries age by
one and are vacated when the age exceeds `max_age`. -/
def agedEntry (maxAge : Int) (e : Entry) : Entry :=
  if e.fingerprint = Entry.UNUSED then e
  else
    let e' : Entry := { e with age := e.age + 1 }
    if e'.age > maxAge then { e' with fingerprint := Entry.UNUSED } else e'

/-- `TranspositionTable::age`: age every live entry, vacating the too-old. -/
def age (t : TranspositionTable) : TranspositionTable :=
  ⟨t.table.map (agedEntry t.max_age), t.max_age⟩

end TranspositionTable

/-- The game-tree search context (`struct GameTree` plus its three run-time
collaborators `GameState`, `StaticEvaluator`, and the response generator). -/
structure GameTree (S : Type) where
  fingerprint : S → Nat
  whose_turn : S → Nat
  evaluate : S → Val
  alice_wins_value : Val
  bob_wins_value : Val
  response_generator : S → Int → List S
  max_depth : Int

/-- A candidate response inside one search frame (`struct Response`). -/
structure Response (S : Type) where
  state : S
  value : Val
  quality : Int
deriving DecidableEq

/-- Quality of a value obtained straight from the static evaluator
(`SEF_QUALITY`). -/
def SEF_QUALITY : Int := 0

variable {S : Type}

namespace GameTree

/-- `get_preliminary_value`: probe the table with `min_q = -1`; on a miss run
the static evaluator and store its value with quality `SEF_QUALITY`. -/
def get_preliminary_value (g : GameTree S) (t : TranspositionTable) (s : S) :
    (Val × Int) × TranspositionTable :=
  match t.check (g.fingerprint s) (-1) with
  | (some (v, q), t') => ((v, q), t')
  | (none, t') =>
    let value := g.evaluate s
    ((value, SEF_QUALITY), t'.update (g.fingerprint s) value SEF_QUALITY)

/-- The body of the `map` in `generate_responses`, with the table threaded
through the preliminary-value computation of each generated state in order. -/
def buildResponses (g : GameTree S) (t : TranspositionTable) :
    List S → List (Response S) × TranspositionTable
  | [] => ([], t)
  | x :: xs =>
    let r := g.get_preliminary_value t x
    let rest := buildResponses g r.2 xs
    (⟨x, r.1.1, r.1.2⟩ :: rest.1, rest.2)

/-- `generate_responses`: run the response generator and seed each successor
with its preliminary value and quality. -/
def generate_responses (g : GameTree S) (t : TranspositionTable) (s : S) (depth : Int) :
    List (Response S) × TranspositionTable :=
  buildResponses g t (g.response_generator s depth)

/-- Insertion into a descending-sorted list, stable like Rust's `sort_by`
with comparator `b.value.partial_cmp(&a.value)`: an element passes over a
head only while the head's value is strictly greater. -/
def insertDesc (r : Response S) : List (Response S) → List (Response S)
  | [] => [r]
  | h :: l => if r.value < h.value then h :: insertDesc r l else r :: h :: l

/-- Stable descending sort by value (Alice's ordering in `alice_search`). -/
def sortDesc : List (Response S) → List (Response S)
  | [] => []
  | h :: l => insertDesc h (sortDesc l)

/-- Insertion into an ascending-sorted list, stable like Rust's `sort_by`
with comparator `a.value.partial_cmp(&b.value)`. -/
def insertAsc (r : Response S) : List (Response S) → List (Response S)
  | [] => [r]
  | h :: l => if h.value < r.value then h :: insertAsc r l else r :: h :: l

/-- Stable ascending sort by value (Bob's ordering in `bob_search`). -/
def sortAsc : List (Response S) → List (Response S)
  | [] => []
  | h :: l => insertAsc h (sortAsc l)

/-- The type of a recursive search entry point as seen by the opposite
player's loop body. -/
abbrev RecSearch (S : Type) :=
  TranspositionTable → S → Val → Val → Int → Option (Response S) × TranspositionTable

/-- The first half of the body of Alice's `for` loop in `alice_search`:
replace a successor's preliminary value and quality with the result of Bob's
deeper search, unless that search is skipped because the preliminary value
already signals an Alice win, the depth budget is exhausted, or the
preliminary quality already matches a search from this frame. -/
def resolveA (g : GameTree S) (recurse : RecSearch S) (t : TranspositionTable)
    (r : Response S) (alpha beta : Val) (depth : Int) :
    Response S × TranspositionTable :=
  if r.value < g.alice_wins_value ∧ depth + 1 < g.max_depth ∧
      r.quality < g.max_depth - (depth + 1) then
    match recurse t r.state alpha beta (depth + 1) with
    | (some br, t2) => (⟨r.state, br.value, br.quality⟩, t2)
    | (none, t2) => (r, t2)
  else
    (r, t)

/-- The first half of the body of Bob's `for` loop in `bob_search` (dual of
`resolveA`, skipping on a preliminary value at or below Bob's win sentinel). -/
def resolveB (g : GameTree S) (recurse : RecSearch S) (t : TranspositionTable)
    (r : Response S) (alpha beta : Val) (depth : Int) :
    Response S × TranspositionTable :=
  if g.bob_wins_value < r.value ∧ depth + 1 < g.max_depth ∧
      r.quality < g.max_depth - (depth + 1) then
    match recurse t r.state alpha beta (depth + 1) with
    | (some ar, t2) => (⟨r.state, ar.value, ar.quality⟩, t2)
    | (none, t2) => (r, t2)
  else
    (r, t)

/-- Alice's `for` loop over the sorted responses: track the best state, best
value, best quality and the pruned flag, raising `alpha` as the best value
improves; break (with `pruned = false`) on a winning value and break with
`pruned = true` on a beta cutoff (`best_value > beta`). -/
def aliceLoop (g : GameTree S) (recurse : RecSearch S) :
    TranspositionTable → List (Response S) → Val → Val → Int →
    Option S → Val → Int → Option S × Val × Int × Bool × TranspositionTable
  | t, [], _, _, _, bs, bv, bq => (bs, bv, bq, false, t)
  | t, r :: rs, alpha, beta, depth, bs, bv, bq =>
    let step := resolveA g recurse t r alpha beta depth
    let r2 := step.1
    let t2 := step.2
    if bv < r2.value then
      if g.alice_wins_value ≤ r2.value then
        (some r2.state, r2.value, r2.quality, false, t2)
      else if beta < r2.value then
        (some r2.state, r2.value, r2.quality, true, t2)
      else
        let alpha2 := if alpha < r2.value then r2.value else alpha
        aliceLoop g recurse t2 rs alpha2 beta depth (some r2.state) r2.value r2.quality
    else
      aliceLoop g recurse t2 rs alpha beta depth bs bv bq

/-- Bob's `for` loop over the sorted responses (dual of `aliceLoop`): lower
`beta` as the best value improves; break on a Bob-winning value and break
with `pruned = true` on an alpha cutoff (`best_value < alpha`). -/
def bobLoop (g : GameTree S) (recurse : RecSearch S) :
    TranspositionTable → List (Response S) → Val → Val → Int →
    Option S → Val → Int → Option S × Val × Int × Bool × TranspositionTable
  | t, [], _, _, _, bs, bv, bq => (bs, bv, bq, false, t)
  | t, r :: rs, alpha, beta, depth, bs, bv, bq =>
    let step := resolveB g recurse t r alpha beta depth
    let r2 := step.1
    let t2 := step.2
    if r2.value < bv then
      if r2.value ≤ g.bob_wins_value then
        (some r2.state, r2.value, r2.quality, false, t2)
      else if r2.value < alpha then
        (some r2.state, r2.value, r2.quality, true, t2)
      else
        let beta2 := if r2.value < beta then r2.value else beta
        bobLoop g recurse t2 rs alpha beta2 depth (some r2.state) r2.value r2.quality
    else
      bobLoop g recurse t2 rs alpha beta depth bs bv bq

/-- The common frame of `alice_search` (`isMax = true`) and `bob_search`
(`isMax = false`), with one unit of fuel consumed per ply of recursion.
Empty response list returns `none`; otherwise sort, run the loop from the
initial bests, and — exactly when the frame was not pruned — write the best
value back to the table under this state's fingerprint with quality
`best_quality + 1`. -/
def search (g : GameTree S) : Nat → Bool → TranspositionTable → S → Val → Val → Int →
    Option (Response S) × TranspositionTable
  | 0, _, t, _, _, _, _ => (none, t)
  | n + 1, true, t, s, alpha, beta, depth =>
    let gen := g.generate_responses t s depth
    if gen.1.isEmpty then (none, gen.2)
    else
      match aliceLoop g (fun t' s' a' b' d' => search g n false t' s' a' b' d')
          gen.2 (sortDesc gen.1) alpha beta depth none ⊥ (-1) with
      | (none, _, _, _, t2) => (none, t2)
      | (some b, bv, bq, pruned, t2) =>
        (some ⟨b, bv, bq + 1⟩,
          if pruned then t2 else t2.update (g.fingerprint s) bv (bq + 1))
  | n + 1, false, t, s, alpha, beta, depth =>
    let gen := g.generate_responses t s depth
    if gen.1.isEmpty then (none, gen.2)
    else
      match bobLoop g (fun t' s' a' b' d' => search g n true t' s' a' b' d')
          gen.2 (sortAsc gen.1) alpha beta depth none ⊤ (-1) with
      | (none, _, _, _, t2) => (none, t2)
      | (some b, bv, bq, pruned, t2) =>
        (some ⟨b, bv, bq + 1⟩,
          if pruned then t2 else t2.update (g.fingerprint s) bv (bq + 1))

/-- `alice_search`, at a given fuel. -/
def alice_search (g : GameTree S) (fuel : Nat) : RecSearch S :=
  fun t s alpha beta depth => search g fuel true t s alpha beta depth

/-- `bob_search`, at a given fuel. -/
def bob_search (g : GameTree S) (fuel : Nat) : RecSearch S :=
  fun t s alpha beta depth => search g fuel false t s alpha beta depth

/-- Ample fuel for a full search from depth 0: the recursion guard
`response_depth < max_depth` keeps the fuel strictly positive throughout. -/
def fullFuel (g : GameTree S) : Nat := g.max_depth.toNat + 1

/-- `find_best_response`: dispatch on the root's mover and return the chosen
response's state (with the updated table). -/
def find_best_response (g : GameTree S) (t : TranspositionTable) (s0 : S) :
    Option S × TranspositionTable :=
  if g.whose_turn s0 = 0 then
    match g.alice_search g.fullFuel t s0 ⊥ ⊤ 0 with
    | (some r, t') => (some r.state, t')
    | (none, t') => (none, t')
  else
    match g.bob_search g.fullFuel t s0 ⊥ ⊤ 0 with
    | (some r, t') => (some r.state, t')
    | (none, t') => (none, t')

/-- Modelled from the spec: the naive full minimax of depth `max_depth`, with
no alpha-beta pruning and no cache — the comparison point of the search
equivalence claim.  A node at the depth bound, or with no successors, takes
its static value; otherwise the maximizer (resp. minimizer) takes the
maximum (resp. minimum) of its successors' values one ply deeper. -/
def naiveMinimax (g : GameTree S) : Nat → Bool → S → Int → Val
  | 0, _, s, _ => g.evaluate s
  | n + 1, maximize, s, depth =>
    if g.max_depth ≤ depth then g.evaluate s
    else
      let ks := g.response_generator s depth
      if ks.isEmpty then g.evaluate s
      else if maximize then
        (ks.map (fun k => naiveMinimax g n false k (depth + 1))).foldl max ⊥
      else
        (ks.map (fun k => naiveMinimax g n true k (depth + 1))).foldl min ⊤

end GameTree

/-! ## Basic facts about table slots -/

namespace TranspositionTable

theorem length_set (t : TranspositionTable) (f : Nat) (v : Val) (q : Int) :
    (t.set f v q).table.length = t.table.length := by
  simp [set]

theorem length_age (t : TranspositionTable) :
    t.age.table.length = t.table.length := by
  simp [age]

theorem max_age_set (t : TranspositionTable) (f : Nat) (v : Val) (q : Int) :
    (t.set f v q).max_age = t.max_age := by
  simp [set]

theorem max_age_age (t : TranspositionTable) : t.age.max_age = t.max_age := by
  simp [age]

theorem getD_set_self (l : List Entry) (i : Nat) (a : Entry) (h : i < l.length) :
    (l.set i a).getD i Entry.dflt = a := by
  rw [List.getD_eq_getElem?_getD, List.getElem?_set_eq_of_lt a h]
  rfl

theorem getD_set_ne (l : List Entry) (i j : Nat) (a : Entry) (h : i ≠ j) :
    (l.set i a).getD j Entry.dflt = l.getD j Entry.dflt := by
  rw [List.getD_eq_getElem?_getD, List.getElem?_set_ne h, ← List.getD_eq_getElem?_getD]

theorem getD_map_aged (t : TranspositionTable) (i : Nat) (h : i < t.table.length) :
    t.age.table.getD i Entry.dflt
      = agedEntry t.max_age (t.table.getD i Entry.dflt) := by
  simp only [age]
  rw [List.getD_eq_getElem?_getD, List.getElem?_map,
    List.getElem?_eq_getElem h, List.getD_eq_getElem?_getD,
    List.getElem?_eq_getElem h]
  rfl

theorem find_lt_length (t : TranspositionTable) (f : Nat) (h : 0 < t.table.length) :
    t.find f < t.table.length :=
  Nat.mod_lt _ h

end TranspositionTable

/-! ## Characterizations of the table operations -/

namespace TranspositionTable

/-- The table produced by a fingerprint-matching `check`: same table with the
probed slot's age reset to 0. -/
def agedSlot (t : TranspositionTable) (f : Nat) : TranspositionTable :=
  ⟨t.table.set (t.find f) { t.table.getD (t.find f) Entry.dflt with age := 0 }, t.max_age⟩

theorem check_mismatch (t : TranspositionTable) (f : Nat) (min_q : Int)
    (hm : (t.table.getD (t.find f) Entry.dflt).fingerprint ≠ f) :
    t.check f min_q = (none, t) := by
  simp only [check]
  rw [if_pos hm]

theorem check_hit (t : TranspositionTable) (f : Nat) (min_q : Int)
    (hm : (t.table.getD (t.find f) Entry.dflt).fingerprint = f)
    (hq : ¬(0 ≤ min_q ∧ (t.table.getD (t.find f) Entry.dflt).q < min_q)) :
    t.check f min_q =
      (some ((t.table.getD (t.find f) Entry.dflt).value,
             (t.table.getD (t.find f) Entry.dflt).q),
       t.agedSlot f) := by
  simp only [check]
  rw [if_neg (fun hc => hc hm), if_neg hq]
  rfl

theorem check_quality_miss (t : TranspositionTable) (f : Nat) (min_q : Int)
    (hm : (t.table.getD (t.find f) Entry.dflt).fingerprint = f)
    (h0 : 0 ≤ min_q) (hlt : (t.table.getD (t.find f) Entry.dflt).q < min_q) :
    t.check f min_q = (none, t.agedSlot f) := by
  simp only [check]
  rw [if_neg (fun hc => hc hm), if_pos ⟨h0, hlt⟩]
  rfl

theorem update_write (t : TranspositionTable) (f : Nat) (v : Val) (q : Int)
    (h : (t.table.getD (t.find f) Entry.dflt).fingerprint = Entry.UNUSED ∨
         (t.table.getD (t.find f) Entry.dflt).q ≤ q) :
    t.update f v q = ⟨t.table.set (t.find f) ⟨f, v, q, 0⟩, t.max_age⟩ := by
  simp only [update]
  rw [if_pos (h.imp id ge_iff_le.mpr)]

theorem update_skip (t : TranspositionTable) (f : Nat) (v : Val) (q : Int)
    (h1 : (t.table.getD (t.find f) Entry.dflt).fingerprint ≠ Entry.UNUSED)
    (h2 : q < (t.table.getD (t.find f) Entry.dflt).q) :
    t.update f v q = t := by
  simp only [update]
  rw [if_neg]
  push_neg
  exact ⟨h1, h2⟩

end TranspositionTable

/-! ## Claims C3, C4, C10: transposition-table operation semantics -/

/-- C3: for a valid fingerprint and nonnegative quality, `update` overwrites
the slot at `f mod N` with `(f, v, q, age 0)` exactly when that slot is
vacant or the new quality is at least the incumbent's (equality replaces,
and the incumbent's fingerprint is never compared with `f`); otherwise the
whole table is left unchanged. -/
theorem C3_update_replacement (t : TranspositionTable) (f : Nat) (v : Val) (q : Int)
    (hf : f ≠ Entry.UNUSED) (hq : 0 ≤ q) (hN : 0 < t.table.length) :
    (((t.table.getD (t.find f) Entry.dflt).fingerprint = Entry.UNUSED ∨
        (t.table.getD (t.find f) Entry.dflt).q ≤ q) →
      t.update f v q = ⟨t.table.set (t.find f) ⟨f, v, q, 0⟩, t.max_age⟩) ∧
    ((t.table.getD (t.find f) Entry.dflt).fingerprint ≠ Entry.UNUSED →
      q < (t.table.getD (t.find f) Entry.dflt).q →
      t.update f v q = t) :=
  ⟨fun h => TranspositionTable.update_write t f v q h,
   fun h1 h2 => TranspositionTable.update_skip t f v q h1 h2⟩

/-- Witness for C3 at a concrete table: a quality-2 write into a live slot of
quality 1 (different fingerprint) overwrites it, and a quality-0 write into
that slot is a no-op. -/
theorem C3_update_replacement_witness :
    (TranspositionTable.update ⟨[Entry.dflt, ⟨1, fv 5, 1, 0⟩], 10⟩ 3 (fv 9) 2
      = ⟨[Entry.dflt, ⟨3, fv 9, 2, 0⟩], 10⟩) ∧
    (TranspositionTable.update ⟨[Entry.dflt, ⟨1, fv 5, 1, 0⟩], 10⟩ 3 (fv 9) 0
      = ⟨[Entry.dflt, ⟨1, fv 5, 1, 0⟩], 10⟩) := by
  constructor
  · rw [(C3_update_replacement ⟨[Entry.dflt, ⟨1, fv 5, 1, 0⟩], 10⟩ 3 (fv 9) 2
      (by decide) (by decide) (by decide)).1 (Or.inr (by decide))]
    decide
  · exact (C3_update_replacement ⟨[Entry.dflt, ⟨1, fv 5, 1, 0⟩], 10⟩ 3 (fv 9) 0
      (by decide) (by decide) (by decide)).2 (by decide) (by decide)

/-- C4: `check f min_q` answers from the single slot at `f mod N`: it returns
the stored value and quality exactly when the slot's fingerprint is `f` and
either `min_q < 0` or the stored quality reaches `min_q`; whenever the
fingerprints match the age is reset to 0, even when the quality filter then
reports a miss; on a fingerprint mismatch the table is returned unchanged. -/
theorem C4_check_semantics (t : TranspositionTable) (f : Nat) (min_q : Int)
    (hf : f ≠ Entry.UNUSED) (hN : 0 < t.table.length) :
    ((t.table.getD (t.find f) Entry.dflt).fingerprint = f →
      (min_q < 0 ∨ min_q ≤ (t.table.getD (t.find f) Entry.dflt).q) →
      t.check f min_q =
        (some ((t.table.getD (t.find f) Entry.dflt).value,
               (t.table.getD (t.find f) Entry.dflt).q),
         t.agedSlot f)) ∧
    ((t.table.getD (t.find f) Entry.dflt).fingerprint = f →
      0 ≤ min_q → (t.table.getD (t.find f) Entry.dflt).q < min_q →
      t.check f min_q = (none, t.agedSlot f)) ∧
    ((t.table.getD (t.find f) Entry.dflt).fingerprint ≠ f →
      t.check f min_q = (none, t)) ∧
    ((t.check f min_q).1.isSome ↔
      ((t.table.getD (t.find f) Entry.dflt).fingerprint = f ∧
        (min_q < 0 ∨ min_q ≤ (t.table.getD (t.find f) Entry.dflt).q))) := by
  refine ⟨fun hm hq => t.check_hit f min_q hm (by omega),
    fun hm h0 hlt => t.check_quality_miss f min_q hm h0 hlt,
    fun hm => t.check_mismatch f min_q hm, ?_, ?_⟩
  · intro hs
    by_cases hm : (t.table.getD (t.find f) Entry.dflt).fingerprint = f
    · refine ⟨hm, ?_⟩
      by_cases hq : 0 ≤ min_q ∧ (t.table.getD (t.find f) Entry.dflt).q < min_q
      · rw [t.check_quality_miss f min_q hm hq.1 hq.2] at hs
        simp at hs
      · omega
    · rw [t.check_mismatch f min_q hm] at hs
      simp at hs
  · intro ⟨hm, hq⟩
    rw [t.check_hit f min_q hm (by omega)]
    rfl

/-- Witness for C4 at a concrete table: a hit with a satisfied quality
filter, a quality-filtered miss that still resets the age, and an untouched
table on a fingerprint mismatch. -/
theorem C4_check_semantics_witness :
    (TranspositionTable.check ⟨[Entry.dflt, ⟨1, fv 5, 2, 7⟩], 10⟩ 1 2
      = (some (fv 5, 2), ⟨[Entry.dflt, ⟨1, fv 5, 2, 0⟩], 10⟩)) ∧
    (TranspositionTable.check ⟨[Entry.dflt, ⟨1, fv 5, 2, 7⟩], 10⟩ 1 3
      = (none, ⟨[Entry.dflt, ⟨1, fv 5, 2, 0⟩], 10⟩)) ∧
    (TranspositionTable.check ⟨[Entry.dflt, ⟨1, fv 5, 2, 7⟩], 10⟩ 3 (-1)
      = (none, ⟨[Entry.dflt, ⟨1, fv 5, 2, 7⟩], 10⟩)) := by
  refine ⟨?_, ?_, ?_⟩
  · rw [(C4_check_semantics ⟨[Entry.dflt, ⟨1, fv 5, 2, 7⟩], 10⟩ 1 2
      (by decide) (by decide)).1 (by decide) (Or.inr (by decide))]
    decide
  · rw [(C4_check_semantics ⟨[Entry.dflt, ⟨1, fv 5, 2, 7⟩], 10⟩ 1 3
      (by decide) (by decide)).2.1 (by decide) (by decide) (by decide)]
    decide
  · rw [(C4_check_semantics ⟨[Entry.dflt, ⟨1, fv 5, 2, 7⟩], 10⟩ 3 (-1)
      (by decide) (by decide)).2.2.1 (by decide)]

/-- C10: each of `check`, `update` and `set` touches at most the single slot
at `f mod N` — every other slot of the table is unchanged by the operation
(one probe, no chaining, no second probe) — and `check` modifies no field of
the probed slot other than its age. -/
theorem C10_single_probe (t : TranspositionTable) (f : Nat) (min_q : Int) (v : Val) (q : Int)
    (j : Nat) (hf : f ≠ Entry.UNUSED) (hN : 0 < t.table.length) (hj : j ≠ t.find f) :
    ((t.check f min_q).2.table.getD j Entry.dflt = t.table.getD j Entry.dflt) ∧
    ((t.update f v q).table.getD j Entry.dflt = t.table.getD j Entry.dflt) ∧
    ((t.set f v q).table.getD j Entry.dflt = t.table.getD j Entry.dflt) ∧
    (((t.check f min_q).2.table.getD (t.find f) Entry.dflt).fingerprint
        = (t.table.getD (t.find f) Entry.dflt).fingerprint ∧
      ((t.check f min_q).2.table.getD (t.find f) Entry.dflt).value
        = (t.table.getD (t.find f) Entry.dflt).value ∧
      ((t.check f min_q).2.table.getD (t.find f) Entry.dflt).q
        = (t.table.getD (t.find f) Entry.dflt).q) := by
  have hset : ∀ e : Entry,
      (t.table.set (t.find f) e).getD j Entry.dflt = t.table.getD j Entry.dflt :=
    fun e => TranspositionTable.getD_set_ne _ _ _ _ (Ne.symm hj)
  have hself : ∀ e : Entry,
      (t.table.set (t.find f) e).getD (t.find f) Entry.dflt = e :=
    fun e => TranspositionTable.getD_set_self _ _ _ (t.find_lt_length f hN)
  have hcheck : (t.check f min_q).2 = t ∨ (t.check f min_q).2 = t.agedSlot f := by
    by_cases hm : (t.table.getD (t.find f) Entry.dflt).fingerprint = f
    · by_cases hq : 0 ≤ min_q ∧ (t.table.getD (t.find f) Entry.dflt).q < min_q
      · right; rw [t.check_quality_miss f min_q hm hq.1 hq.2]
      · right; rw [t.check_hit f min_q hm hq]
    · left; rw [t.check_mismatch f min_q hm]
  refine ⟨?_, ?_, hset _, ?_⟩
  · rcases hcheck with h | h <;> rw [h]
    exact hset _
  · by_cases hw : (t.table.getD (t.find f) Entry.dflt).fingerprint = Entry.UNUSED ∨
        (t.table.getD (t.find f) Entry.dflt).q ≤ q
    · rw [t.update_write f v q hw]
      exact hset _
    · push_neg at hw
      rw [t.update_skip f v q hw.1 hw.2]
  · rcases hcheck with h | h <;> rw [h]
    · exact ⟨rfl, rfl, rfl⟩
    · simp only [TranspositionTable.agedSlot]
      rw [hself]
      exact ⟨rfl, rfl, rfl⟩

/-- Witness for C10 at a concrete two-slot table: fingerprint 3 probes slot 1
and slot 0 is untouched by all three operations, while `check` only resets
the probed slot's age. -/
theorem C10_single_probe_witness :
    let t : TranspositionTable := ⟨[⟨2, fv 4, 1, 3⟩, ⟨3, fv 5, 2, 7⟩], 10⟩
    ((t.check 3 (-1)).2.table.getD 0 Entry.dflt = ⟨2, fv 4, 1, 3⟩) ∧
    ((t.update 3 (fv 9) 5).table.getD 0 Entry.dflt = ⟨2, fv 4, 1, 3⟩) ∧
    ((t.set 3 (fv 9) 5).table.getD 0 Entry.dflt = ⟨2, fv 4, 1, 3⟩) ∧
    ((t.check 3 (-1)).2.table.getD (t.find 3) Entry.dflt).value = fv 5 := by
  intro t
  have h := C10_single_probe t 3 (-1) (fv 9) 5 0 (by decide) (by decide) (by decide)
  exact ⟨by rw [h.1]; decide, by rw [h.2.1]; decide, by rw [h.2.2.1]; decide,
    by rw [h.2.2.2.2.1]; decide⟩

/-! ## Claim C7: set / age round trip -/

namespace TranspositionTable

/-- Iterated aging sweeps. -/
def iterAge : Nat → TranspositionTable → TranspositionTable
  | 0, t => t
  | n + 1, t => (iterAge n t).age

/-- One age-then-read cycle of the aging round-trip law. -/
def ageCheckCycle (f : Nat) (t : TranspositionTable) : TranspositionTable :=
  (t.age.check f (-1)).2

/-- Iterated age-then-read cycles. -/
def iterCycle (f : Nat) : Nat → TranspositionTable → TranspositionTable
  | 0, t => t
  | n + 1, t => ageCheckCycle f (iterCycle f n t)

theorem find_lt_of_slot_live (u : TranspositionTable) (f : Nat)
    (h : (u.table.getD (u.find f) Entry.dflt).fingerprint ≠ Entry.UNUSED) :
    u.find f < u.table.length := by
  by_contra hge
  rw [List.getD_eq_default _ _ (le_of_not_lt hge)] at h
  exact h rfl

theorem age_slot (u : TranspositionTable) (i : Nat) (hi : i < u.table.length) :
    u.age.table.getD i Entry.dflt = agedEntry u.max_age (u.table.getD i Entry.dflt) :=
  u.getD_map_aged i hi

/-- One age-then-read cycle on a slot holding `(f, v, q, age 0)`: the read
reports `(v, q)` and the slot again holds `(f, v, q, age 0)` afterwards. -/
theorem cycle_slot (u : TranspositionTable) (f : Nat) (v : Val) (q : Int)
    (hf : f ≠ Entry.UNUSED) (hma : 1 ≤ u.max_age)
    (hslot : u.table.getD (u.find f) Entry.dflt = ⟨f, v, q, 0⟩) :
    (u.age.check f (-1)).1 = some (v, q) ∧
    (ageCheckCycle f u).table.getD ((ageCheckCycle f u).find f) Entry.dflt = ⟨f, v, q, 0⟩ ∧
    (ageCheckCycle f u).table.length = u.table.length ∧
    (ageCheckCycle f u).max_age = u.max_age := by
  have hlt : u.find f < u.table.length := by
    apply u.find_lt_of_slot_live f
    rw [hslot]
    exact hf
  have hfind : u.age.find f = u.find f := by
    simp [find, length_age]
  have haslot : u.age.table.getD (u.age.find f) Entry.dflt = ⟨f, v, q, 1⟩ := by
    rw [hfind, u.age_slot (u.find f) hlt, hslot]
    simp only [agedEntry, if_neg hf]
    rw [if_neg (show ¬((0 : Int) + 1 > u.max_age) by omega)]
    norm_num
  have hchk := u.age.check_hit f (-1) (by rw [haslot]) (by omega)
  rw [haslot] at hchk
  refine ⟨by rw [hchk], ?_, ?_, ?_⟩
  · rw [ageCheckCycle, hchk]
    simp only [agedSlot]
    have hfind2 : (⟨u.age.table.set (u.age.find f)
        { u.age.table.getD (u.age.find f) Entry.dflt with age := 0 },
        u.age.max_age⟩ : TranspositionTable).find f = u.age.find f := by
      simp [find]
    rw [hfind2, haslot]
    exact getD_set_self _ _ _ (by rw [hfind, length_age]; exact hlt)
  · rw [ageCheckCycle, hchk]
    simp [agedSlot, length_age]
  · rw [ageCheckCycle, hchk]
    simp [agedSlot, max_age_age]

end TranspositionTable

namespace TranspositionTable

/-- Invariant of the age-then-read cycles: the probed slot keeps holding the
freshly-read entry `(f, v, q, age 0)`, and the table geometry is unchanged. -/
theorem iterCycle_inv (t1 : TranspositionTable) (f : Nat) (v : Val) (q : Int)
    (hf : f ≠ Entry.UNUSED) (hma : 1 ≤ t1.max_age)
    (hslot : t1.table.getD (t1.find f) Entry.dflt = ⟨f, v, q, 0⟩) :
    ∀ k : Nat,
      (iterCycle f k t1).table.getD ((iterCycle f k t1).find f) Entry.dflt = ⟨f, v, q, 0⟩ ∧
      (iterCycle f k t1).table.length = t1.table.length ∧
      (iterCycle f k t1).max_age = t1.max_age := by
  intro k
  induction k with
  | zero => exact ⟨hslot, rfl, rfl⟩
  | succ k ih =>
    have h := cycle_slot (iterCycle f k t1) f v q hf (by rw [ih.2.2]; exact hma) ih.1
    exact ⟨h.2.1, by rw [iterCycle, h.2.2.1, ih.2.1], by rw [iterCycle, h.2.2.2, ih.2.2]⟩

/-- Pure aging runs: starting from a slot of age `a`, after `j` further
sweeps that stay within `max_age` the slot holds age `a + j`. -/
theorem iterAge_slot (t1 : TranspositionTable) (f : Nat) (v : Val) (q : Int)
    (hf : f ≠ Entry.UNUSED)
    (hslot : t1.table.getD (t1.find f) Entry.dflt = ⟨f, v, q, 0⟩) :
    ∀ j : Nat, (j : Int) ≤ t1.max_age →
      (iterAge j t1).table.getD ((iterAge j t1).find f) Entry.dflt = ⟨f, v, q, (j : Int)⟩ ∧
      (iterAge j t1).table.length = t1.table.length ∧
      (iterAge j t1).max_age = t1.max_age := by
  intro j
  induction j with
  | zero => exact fun _ => ⟨hslot, rfl, rfl⟩
  | succ j ih =>
    intro hj
    have ihj := ih (by push_cast at hj ⊢; omega)
    have hlt : (iterAge j t1).find f < (iterAge j t1).table.length := by
      apply find_lt_of_slot_live
      rw [ihj.1]
      exact hf
    have hfind : (iterAge j t1).age.find f = (iterAge j t1).find f := by
      simp [find, length_age]
    have hstep : (iterAge (j + 1) t1).table.getD ((iterAge (j + 1) t1).find f) Entry.dflt
        = ⟨f, v, q, (j : Int) + 1⟩ := by
      show ((iterAge j t1).age).table.getD (((iterAge j t1).age).find f) Entry.dflt = _
      rw [hfind, age_slot _ _ hlt, ihj.1]
      simp only [agedEntry, if_neg hf]
      rw [if_neg (show ¬((j : Int) + 1 > (iterAge j t1).max_age) by
        rw [ihj.2.2]; push_cast at hj; omega)]
    refine ⟨by rw [hstep]; norm_num, ?_, ?_⟩
    · show ((iterAge j t1).age).table.length = _
      rw [length_age, ihj.2.1]
    · show ((iterAge j t1).age).max_age = _
      rw [max_age_age, ihj.2.2]

/-- After one sweep beyond `max_age` the slot is vacated. -/
theorem iterAge_expire (t1 : TranspositionTable) (f : Nat) (v : Val) (q : Int) (m : Nat)
    (hf : f ≠ Entry.UNUSED) (hm : t1.max_age = (m : Int))
    (hslot : t1.table.getD (t1.find f) Entry.dflt = ⟨f, v, q, 0⟩) :
    ((iterAge (m + 1) t1).table.getD ((iterAge (m + 1) t1).find f) Entry.dflt).fingerprint
      = Entry.UNUSED := by
  have ihm := iterAge_slot t1 f v q hf hslot m (by omega)
  have hlt : (iterAge m t1).find f < (iterAge m t1).table.length := by
    apply find_lt_of_slot_live
    rw [ihm.1]
    exact hf
  have hfind : (iterAge m t1).age.find f = (iterAge m t1).find f := by
    simp [find, length_age]
  show (((iterAge m t1).age).table.getD (((iterAge m t1).age).find f) Entry.dflt).fingerprint = _
  rw [hfind, age_slot _ _ hlt, ihm.1]
  simp only [agedEntry, if_neg hf]
  rw [if_pos (show (m : Int) + 1 > (iterAge m t1).max_age by rw [ihm.2.2, hm]; omega)]

end TranspositionTable

/-- C7: after `set(f, v, q)`, `check(f, -1)` reads back `(v, q)`; alternating
`age()` and `check(f, -1)` keeps reading `(v, q)` no matter how often (each
read resets the age); and `max_age + 1` consecutive sweeps with no
intervening read of `f` vacate the slot, so `check(f, -1)` then misses. -/
theorem C7_set_age_roundtrip (t : TranspositionTable) (f : Nat) (v : Val) (q : Int) (m : Nat)
    (hf : f ≠ Entry.UNUSED) (hq : 0 ≤ q) (hN : 0 < t.table.length)
    (hm : t.max_age = (m : Int)) (hm1 : 1 ≤ m) :
    (((t.set f v q).check f (-1)).1 = some (v, q)) ∧
    (∀ k : Nat,
      (((TranspositionTable.iterCycle f k (t.set f v q)).age.check f (-1)).1 = some (v, q))) ∧
    (((TranspositionTable.iterAge (m + 1)
        (TranspositionTable.iterCycle f m (t.set f v q))).check f (-1)).1 = none) := by
  have hsetlen : (t.set f v q).table.length = t.table.length := t.length_set f v q
  have hfind : (t.set f v q).find f = t.find f := by
    simp [TranspositionTable.find, hsetlen]
  have hslot : (t.set f v q).table.getD ((t.set f v q).find f) Entry.dflt = ⟨f, v, q, 0⟩ := by
    rw [hfind]
    exact TranspositionTable.getD_set_self _ _ _ (t.find_lt_length f hN)
  have hma1 : 1 ≤ (t.set f v q).max_age := by
    rw [t.max_age_set f v q, hm]
    omega
  refine ⟨?_, ?_, ?_⟩
  · rw [(t.set f v q).check_hit f (-1) (by rw [hslot]) (by omega), hslot]
  · intro k
    have hinv := TranspositionTable.iterCycle_inv (t.set f v q) f v q hf hma1 hslot k
    exact (TranspositionTable.cycle_slot _ f v q hf (by rw [hinv.2.2]; exact hma1) hinv.1).1
  · have hinv := TranspositionTable.iterCycle_inv (t.set f v q) f v q hf hma1 hslot m
    have hexp := TranspositionTable.iterAge_expire _ f v q m hf
      (by rw [hinv.2.2, t.max_age_set f v q]; exact hm) hinv.1
    rw [TranspositionTable.check_mismatch _ f (-1) (by rw [hexp]; exact fun hc => hf hc.symm)]

/-- Witness for C7 on a concrete two-slot table with `max_age = 2`:
read-back after `set`, survival across age-and-read cycles, and expiry after
three unread sweeps. -/
theorem C7_set_age_roundtrip_witness :
    (((TranspositionTable.new 2 2).set 5 (fv 8) 4).check 5 (-1)).1 = some (fv 8, 4) ∧
    ((TranspositionTable.iterCycle 5 2 ((TranspositionTable.new 2 2).set 5 (fv 8) 4)).age.check
        5 (-1)).1 = some (fv 8, 4) ∧
    ((TranspositionTable.iterAge 3
        (TranspositionTable.iterCycle 5 2 ((TranspositionTable.new 2 2).set 5 (fv 8) 4))).check
        5 (-1)).1 = none := by
  have h := C7_set_age_roundtrip (TranspositionTable.new 2 2) 5 (fv 8) 4 2
    (by decide) (by decide) (by decide) (by decide) (by decide)
  exact ⟨h.1, h.2.1 2, h.2.2⟩

/-! ## Claim C5: preliminary value resolution -/

namespace GameTree

theorem get_preliminary_value_hit (g : GameTree S) (t : TranspositionTable) (s : S)
    (v : Val) (q : Int) (t' : TranspositionTable)
    (h : t.check (g.fingerprint s) (-1) = (some (v, q), t')) :
    g.get_preliminary_value t s = ((v, q), t') := by
  simp only [get_preliminary_value, h]

theorem get_preliminary_value_miss (g : GameTree S) (t : TranspositionTable) (s : S)
    (t' : TranspositionTable)
    (h : t.check (g.fingerprint s) (-1) = (none, t')) :
    g.get_preliminary_value t s
      = ((g.evaluate s, 0), t'.update (g.fingerprint s) (g.evaluate s) 0) := by
  simp only [get_preliminary_value, h, SEF_QUALITY]

/-- A `check` with `min_q = -1` that misses can only be a fingerprint
mismatch, which leaves the table untouched. -/
theorem check_neg_one_miss_eq (t : TranspositionTable) (f : Nat) (t' : TranspositionTable)
    (h : t.check f (-1) = (none, t')) :
    t' = t ∧ (t.table.getD (t.find f) Entry.dflt).fingerprint ≠ f := by
  by_cases hm : (t.table.getD (t.find f) Entry.dflt).fingerprint = f
  · rw [t.check_hit f (-1) hm (by omega)] at h
    simp at h
  · rw [t.check_mismatch f (-1) hm] at h
    exact ⟨(Prod.mk.injEq _ _ _ _).mp h |>.2.symm, hm⟩

end GameTree

/-- C5 as stated is false: on a miss the evaluator's value is passed to
`update` with quality 0, but a colliding incumbent of higher quality makes
that `update` a no-op, so the value is not present in the cache afterwards.
Concrete input: a one-slot table holding `(fingerprint 1, 5, quality 3)` and
a state with fingerprint 2 whose static value is 7. -/
def cex5G : GameTree Nat :=
  ⟨fun _ => 2, fun _ => 0, fun _ => fv 7, fv 1000, fv (-1000), fun _ _ => [], 2⟩

/-- The one-slot table blocking C5's miss-then-write at quality 0. -/
def cex5T : TranspositionTable := ⟨[⟨1, fv 5, 3, 0⟩], 10⟩

/-- Counterexample to C5: the preliminary-value check on fingerprint 2
misses, the evaluator's value 7 is returned with quality 0, yet afterwards
the cache does not contain it — the whole table is unchanged — because the
slot's incumbent has higher quality than `SEF_QUALITY = 0`. -/
theorem C5_counterexample :
    (cex5T.check 2 (-1)).1 = none ∧
    cex5G.get_preliminary_value cex5T 0 = ((fv 7, 0), cex5T) ∧
    ((cex5G.get_preliminary_value cex5T 0).2.check 2 (-1)).1 = none := by
  decide

/-- C5 amended: on a hit the stored pair is returned and the result does not
depend on the evaluator (it is not invoked); on a miss the evaluator's value
is returned with quality 0 and handed to `update` — and it is present in the
cache afterwards provided the probed slot is vacant or its incumbent's
quality is at most 0 (a colliding higher-quality incumbent blocks the write). -/
theorem C5_preliminary_value_amended (g : GameTree S) (t : TranspositionTable) (s : S)
    (hf : g.fingerprint s ≠ Entry.UNUSED) (hN : 0 < t.table.length) :
    (∀ v q t', t.check (g.fingerprint s) (-1) = (some (v, q), t') →
      g.get_preliminary_value t s = ((v, q), t') ∧
      (∀ e : S → Val,
        GameTree.get_preliminary_value { g with evaluate := e } t s = ((v, q), t'))) ∧
    (∀ t', t.check (g.fingerprint s) (-1) = (none, t') →
      g.get_preliminary_value t s
        = ((g.evaluate s, 0), t'.update (g.fingerprint s) (g.evaluate s) 0) ∧
      (((t'.table.getD (t'.find (g.fingerprint s)) Entry.dflt).fingerprint = Entry.UNUSED ∨
          (t'.table.getD (t'.find (g.fingerprint s)) Entry.dflt).q ≤ 0) →
        ((g.get_preliminary_value t s).2.check (g.fingerprint s) (-1)).1
          = some (g.evaluate s, 0))) := by
  constructor
  · intro v q t' h
    exact ⟨g.get_preliminary_value_hit t s v q t' h,
      fun e => GameTree.get_preliminary_value_hit _ t s v q t' h⟩
  · intro t' h
    have hsub : t' = t := (GameTree.check_neg_one_miss_eq t (g.fingerprint s) t' h).1
    rw [hsub] at h ⊢
    refine ⟨g.get_preliminary_value_miss t s t h, fun hv => ?_⟩
    rw [g.get_preliminary_value_miss t s t h]
    rw [t.update_write (g.fingerprint s) (g.evaluate s) 0 hv]
    have hlen : (⟨t.table.set (t.find (g.fingerprint s)) ⟨g.fingerprint s, g.evaluate s, 0, 0⟩,
        t.max_age⟩ : TranspositionTable).table.length = t.table.length := by
      simp
    have hfind : (⟨t.table.set (t.find (g.fingerprint s)) ⟨g.fingerprint s, g.evaluate s, 0, 0⟩,
        t.max_age⟩ : TranspositionTable).find (g.fingerprint s) = t.find (g.fingerprint s) := by
      simp [TranspositionTable.find]
    have hslot : (⟨t.table.set (t.find (g.fingerprint s)) ⟨g.fingerprint s, g.evaluate s, 0, 0⟩,
        t.max_age⟩ : TranspositionTable).table.getD
          ((⟨t.table.set (t.find (g.fingerprint s)) ⟨g.fingerprint s, g.evaluate s, 0, 0⟩,
            t.max_age⟩ : TranspositionTable).find (g.fingerprint s)) Entry.dflt
        = ⟨g.fingerprint s, g.evaluate s, 0, 0⟩ := by
      rw [hfind]
      exact TranspositionTable.getD_set_self _ _ _ (t.find_lt_length _ hN)
    rw [TranspositionTable.check_hit _ (g.fingerprint s) (-1) (by rw [hslot]) (by omega), hslot]

/-- Witness for the amended C5: on a vacant one-slot table the miss path
stores the evaluator's value 7 with quality 0 and a subsequent check finds it. -/
theorem C5_preliminary_value_amended_witness :
    cex5G.get_preliminary_value (TranspositionTable.new 1 10) 0
      = ((fv 7, 0), (TranspositionTable.new 1 10).update 2 (fv 7) 0) ∧
    ((cex5G.get_preliminary_value (TranspositionTable.new 1 10) 0).2.check 2 (-1)).1
      = some (fv 7, 0) := by
  have h := (C5_preliminary_value_amended cex5G (TranspositionTable.new 1 10) 0
    (by decide) (by decide)).2 (TranspositionTable.new 1 10) (by decide)
  exact ⟨h.1, h.2 (by decide)⟩

/-! ## Claim C6: when is a successor searched deeper -/

/-- C6: in a maximizer frame at depth `d` (`reply_depth = d + 1`,
`search_quality = max_depth - reply_depth`), the deeper minimizer search is
entered exactly when the preliminary value is strictly below the Alice-win
sentinel, the reply depth is strictly below `max_depth`, and the preliminary
quality is strictly below `search_quality`; in particular a preliminary
value at (or above) the sentinel skips the deeper search.  The minimizer
frame is dual with the Bob-win sentinel. -/
theorem C6_skip_conditions (g : GameTree S) (recurse : GameTree.RecSearch S)
    (t : TranspositionTable) (r : Response S) (alpha beta : Val) (depth : Int) :
    ((r.value < g.alice_wins_value ∧ depth + 1 < g.max_depth ∧
        r.quality < g.max_depth - (depth + 1)) →
      GameTree.resolveA g recurse t r alpha beta depth =
        (match recurse t r.state alpha beta (depth + 1) with
         | (some br, t2) => (⟨r.state, br.value, br.quality⟩, t2)
         | (none, t2) => (r, t2))) ∧
    (¬(r.value < g.alice_wins_value ∧ depth + 1 < g.max_depth ∧
        r.quality < g.max_depth - (depth + 1)) →
      GameTree.resolveA g recurse t r alpha beta depth = (r, t)) ∧
    (g.alice_wins_value ≤ r.value →
      GameTree.resolveA g recurse t r alpha beta depth = (r, t)) ∧
    ((g.bob_wins_value < r.value ∧ depth + 1 < g.max_depth ∧
        r.quality < g.max_depth - (depth + 1)) →
      GameTree.resolveB g recurse t r alpha beta depth =
        (match recurse t r.state alpha beta (depth + 1) with
         | (some ar, t2) => (⟨r.state, ar.value, ar.quality⟩, t2)
         | (none, t2) => (r, t2))) ∧
    (¬(g.bob_wins_value < r.value ∧ depth + 1 < g.max_depth ∧
        r.quality < g.max_depth - (depth + 1)) →
      GameTree.resolveB g recurse t r alpha beta depth = (r, t)) ∧
    (r.value ≤ g.bob_wins_value →
      GameTree.resolveB g recurse t r alpha beta depth = (r, t)) := by
  refine ⟨?_, ?_, ?_, ?_, ?_, ?_⟩
  · intro h
    rw [GameTree.resolveA, if_pos h]
  · intro h
    rw [GameTree.resolveA, if_neg h]
  · intro h
    rw [GameTree.resolveA, if_neg (fun hc => absurd hc.1 (not_lt.mpr h))]
  · intro h
    rw [GameTree.resolveB, if_pos h]
  · intro h
    rw [GameTree.resolveB, if_neg h]
  · intro h
    rw [GameTree.resolveB, if_neg (fun hc => absurd hc.1 (not_lt.mpr h))]

/-- Witness for C6: with a trivial recursive search, a sub-sentinel
preliminary value enters the deeper search while a preliminary value exactly
at the sentinel skips it. -/
theorem C6_skip_conditions_witness :
    (GameTree.resolveA cex5G (fun t' _ _ _ _ => (none, t')) cex5T ⟨0, fv 5, 0⟩ ⊥ ⊤ 0
      = (⟨0, fv 5, 0⟩, cex5T)) ∧
    (GameTree.resolveA cex5G (fun t' _ _ _ _ => (none, t')) cex5T ⟨0, fv 1000, 0⟩ ⊥ ⊤ 0
      = (⟨0, fv 1000, 0⟩, cex5T)) := by
  have h1 := (C6_skip_conditions cex5G (fun t' _ _ _ _ => (none, t')) cex5T
    ⟨0, fv 5, 0⟩ ⊥ ⊤ 0).1 (by refine ⟨?_, ?_, ?_⟩ <;> decide)
  have h2 := (C6_skip_conditions cex5G (fun t' _ _ _ _ => (none, t')) cex5T
    ⟨0, fv 1000, 0⟩ ⊥ ⊤ 0).2.2.1 (by decide)
  exact ⟨h1, h2⟩

/-! ## Claim C2: cache write-back if and only if not pruned -/

namespace GameTree

/-- If Alice's loop reports `pruned = true`, it stopped on a beta cutoff:
the reported best value strictly exceeds `beta` (which the loop never
modifies). -/
theorem aliceLoop_pruned_beta (g : GameTree S) (recurse : RecSearch S) :
    ∀ (rs : List (Response S)) (t : TranspositionTable) (alpha beta : Val) (depth : Int)
      (bs : Option S) (bv : Val) (bq : Int),
      (aliceLoop g recurse t rs alpha beta depth bs bv bq).2.2.2.1 = true →
      beta < (aliceLoop g recurse t rs alpha beta depth bs bv bq).2.1 := by
  intro rs
  induction rs with
  | nil =>
    intro t alpha beta depth bs bv bq h
    simp [aliceLoop] at h
  | cons r rs ih =>
    intro t alpha beta depth bs bv bq h
    rw [aliceLoop] at h ⊢
    by_cases h1 : bv < (resolveA g recurse t r alpha beta depth).1.value
    · rw [if_pos h1] at h ⊢
      by_cases h2 : g.alice_wins_value ≤ (resolveA g recurse t r alpha beta depth).1.value
      · rw [if_pos h2] at h
        simp at h
      · rw [if_neg h2] at h ⊢
        by_cases h3 : beta < (resolveA g recurse t r alpha beta depth).1.value
        · rw [if_pos h3] at h ⊢
          exact h3
        · rw [if_neg h3] at h ⊢
          exact ih _ _ _ _ _ _ _ h
    · rw [if_neg h1] at h ⊢
      exact ih _ _ _ _ _ _ _ h

/-- If Bob's loop reports `pruned = true`, it stopped on an alpha cutoff:
the reported best value is strictly below `alpha` (which the loop never
modifies). -/
theorem bobLoop_pruned_alpha (g : GameTree S) (recurse : RecSearch S) :
    ∀ (rs : List (Response S)) (t : TranspositionTable) (alpha beta : Val) (depth : Int)
      (bs : Option S) (bv : Val) (bq : Int),
      (bobLoop g recurse t rs alpha beta depth bs bv bq).2.2.2.1 = true →
      (bobLoop g recurse t rs alpha beta depth bs bv bq).2.1 < alpha := by
  intro rs
  induction rs with
  | nil =>
    intro t alpha beta depth bs bv bq h
    simp [bobLoop] at h
  | cons r rs ih =>
    intro t alpha beta depth bs bv bq h
    rw [bobLoop] at h ⊢
    by_cases h1 : (resolveB g recurse t r alpha beta depth).1.value < bv
    · rw [if_pos h1] at h ⊢
      by_cases h2 : (resolveB g recurse t r alpha beta depth).1.value ≤ g.bob_wins_value
      · rw [if_pos h2] at h
        simp at h
      · rw [if_neg h2] at h ⊢
        by_cases h3 : (resolveB g recurse t r alpha beta depth).1.value < alpha
        · rw [if_pos h3] at h ⊢
          exact h3
        · rw [if_neg h3] at h ⊢
          exact ih _ _ _ _ _ _ _ h
    · rw [if_neg h1] at h ⊢
      exact ih _ _ _ _ _ _ _ h

end GameTree

/-- C2: a frame of `alice_search` / `bob_search` that returns `Some` hands
back exactly its loop's `(best_state, best_value, best_quality + 1)`; the
table it returns carries the write `update(fingerprint(S), best_value,
best_quality + 1)` precisely when the loop reported `pruned = false`, and
when a cutoff fired (`pruned = true`, i.e. `best_value` beat the bound) the
frame adds no write for the searched state's fingerprint. -/
theorem C2_writeback_iff_unpruned (g : GameTree S) (n : Nat) (t : TranspositionTable)
    (s : S) (alpha beta : Val) (depth : Int) :
    (∀ r tOut, g.alice_search (n + 1) t s alpha beta depth = (some r, tOut) →
      ∃ bs bv bq pr t2,
        GameTree.aliceLoop g (g.bob_search n) (g.generate_responses t s depth).2
            (GameTree.sortDesc (g.generate_responses t s depth).1) alpha beta depth
            none ⊥ (-1)
          = (some bs, bv, bq, pr, t2) ∧
        r = ⟨bs, bv, bq + 1⟩ ∧
        (pr = false → tOut = t2.update (g.fingerprint s) bv (bq + 1)) ∧
        (pr = true → tOut = t2 ∧ beta < bv)) ∧
    (∀ r tOut, g.bob_search (n + 1) t s alpha beta depth = (some r, tOut) →
      ∃ bs bv bq pr t2,
        GameTree.bobLoop g (g.alice_search n) (g.generate_responses t s depth).2
            (GameTree.sortAsc (g.generate_responses t s depth).1) alpha beta depth
            none ⊤ (-1)
          = (some bs, bv, bq, pr, t2) ∧
        r = ⟨bs, bv, bq + 1⟩ ∧
        (pr = false → tOut = t2.update (g.fingerprint s) bv (bq + 1)) ∧
        (pr = true → tOut = t2 ∧ bv < alpha)) := by
  constructor
  · intro r tOut h
    rw [GameTree.alice_search] at h
    rw [GameTree.search] at h
    by_cases hemp : (g.generate_responses t s depth).1.isEmpty
    · rw [if_pos hemp] at h
      simp at h
    · rw [if_neg hemp] at h
      rcases hL : GameTree.aliceLoop g (g.bob_search n) (g.generate_responses t s depth).2
          (GameTree.sortDesc (g.generate_responses t s depth).1) alpha beta depth
          none ⊥ (-1) with ⟨bs, bv, bq, pr, t2⟩
      rw [show (fun t' s' a' b' d' => GameTree.search g n false t' s' a' b' d')
            = g.bob_search n from rfl, hL] at h
      cases bs with
      | none => simp at h
      | some b =>
        simp only [Prod.mk.injEq, Option.some.injEq] at h
        refine ⟨b, bv, bq, pr, t2, rfl, h.1.symm, ?_, ?_⟩
        · intro hpr
          rw [hpr] at h
          simpa using h.2.symm
        · intro hpr
          rw [hpr] at h
          refine ⟨by simpa using h.2.symm, ?_⟩
          have := GameTree.aliceLoop_pruned_beta g (g.bob_search n)
            (GameTree.sortDesc (g.generate_responses t s depth).1)
            (g.generate_responses t s depth).2 alpha beta depth none ⊥ (-1)
          rw [hL] at this
          simpa using this (by rw [hpr])
  · intro r tOut h
    rw [GameTree.bob_search] at h
    rw [GameTree.search] at h
    by_cases hemp : (g.generate_responses t s depth).1.isEmpty
    · rw [if_pos hemp] at h
      simp at h
    · rw [if_neg hemp] at h
      rcases hL : GameTree.bobLoop g (g.alice_search n) (g.generate_responses t s depth).2
          (GameTree.sortAsc (g.generate_responses t s depth).1) alpha beta depth
          none ⊤ (-1) with ⟨bs, bv, bq, pr, t2⟩
      rw [show (fun t' s' a' b' d' => GameTree.search g n true t' s' a' b' d')
            = g.alice_search n from rfl, hL] at h
      cases bs with
      | none => simp at h
      | some b =>
        simp only [Prod.mk.injEq, Option.some.injEq] at h
        refine ⟨b, bv, bq, pr, t2, rfl, h.1.symm, ?_, ?_⟩
        · intro hpr
          rw [hpr] at h
          simpa using h.2.symm
        · intro hpr
          rw [hpr] at h
          refine ⟨by simpa using h.2.symm, ?_⟩
          have := GameTree.bobLoop_pruned_alpha g (g.alice_search n)
            (GameTree.sortAsc (g.generate_responses t s depth).1)
            (g.generate_responses t s depth).2 alpha beta depth none ⊤ (-1)
          rw [hL] at this
          simpa using this (by rw [hpr])

/-- Concrete one-ply game for exercising the frame decomposition: root 0 with
successors 1 and 2 valued by their labels. -/
def cw2G : GameTree Nat :=
  ⟨fun s => s + 1, fun _ => 0, fun s => fv s, fv 1000, fv (-1000),
   fun s d => if s = 0 ∧ d = 0 then [1, 2] else [], 1⟩

/-- Fresh four-slot table for the C2 witness. -/
def cw2T : TranspositionTable := TranspositionTable.new 4 10

/-- Output table of the concrete C2 frame. -/
def cw2TOut : TranspositionTable := (cw2G.alice_search 1 cw2T 0 ⊥ ⊤ 0).2

/-- Witness for C2: the concrete Alice frame returns its loop's bests with
quality bumped by one and writes back exactly when unpruned. -/
theorem C2_writeback_iff_unpruned_witness :
    ∃ bs bv bq pr t2,
      GameTree.aliceLoop cw2G (cw2G.bob_search 0) (cw2G.generate_responses cw2T 0 0).2
          (GameTree.sortDesc (cw2G.generate_responses cw2T 0 0).1) ⊥ ⊤ 0 none ⊥ (-1)
        = (some bs, bv, bq, pr, t2) ∧
      (⟨2, fv 2, 1⟩ : Response Nat) = ⟨bs, bv, bq + 1⟩ ∧
      (pr = false → cw2TOut = t2.update (cw2G.fingerprint 0) bv (bq + 1)) ∧
      (pr = true → cw2TOut = t2 ∧ (⊤ : Val) < bv) :=
  (C2_writeback_iff_unpruned cw2G 0 cw2T 0 ⊥ ⊤ 0).1 ⟨2, fv 2, 1⟩ cw2TOut (by decide)

/-! ## Sorting: permutation facts -/

namespace GameTree

theorem insertDesc_perm (r : Response S) (l : List (Response S)) :
    List.Perm (insertDesc r l) (r :: l) := by
  induction l with
  | nil => rfl
  | cons h tl ih =>
    rw [insertDesc]
    by_cases hc : r.value < h.value
    · rw [if_pos hc]
      exact (ih.cons h).trans (List.Perm.swap r h tl)
    · rw [if_neg hc]

theorem sortDesc_perm (l : List (Response S)) : List.Perm (sortDesc l) l := by
  induction l with
  | nil => rfl
  | cons h tl ih =>
    rw [sortDesc]
    exact (insertDesc_perm h (sortDesc tl)).trans (ih.cons h)

theorem insertAsc_perm (r : Response S) (l : List (Response S)) :
    List.Perm (insertAsc r l) (r :: l) := by
  induction l with
  | nil => rfl
  | cons h tl ih =>
    rw [insertAsc]
    by_cases hc : h.value < r.value
    · rw [if_pos hc]
      exact (ih.cons h).trans (List.Perm.swap r h tl)
    · rw [if_neg hc]

theorem sortAsc_perm (l : List (Response S)) : List.Perm (sortAsc l) l := by
  induction l with
  | nil => rfl
  | cons h tl ih =>
    rw [sortAsc]
    exact (insertAsc_perm h (sortAsc tl)).trans (ih.cons h)

end GameTree

/-! ## Preliminary values over a table that cannot hit -/

namespace GameTree

/-- No entry of the table carries one of the given fingerprints. -/
def FreshFor (t : TranspositionTable) (fps : List Nat) : Prop :=
  ∀ e ∈ t.table, e.fingerprint ∉ fps

theorem freshFor_sublist (t : TranspositionTable) (fps fps' : List Nat)
    (h : FreshFor t fps) (hsub : ∀ f ∈ fps', f ∈ fps) : FreshFor t fps' :=
  fun e he hmem => h e he (hsub _ hmem)

theorem getD_mem_of_lt (l : List Entry) (i : Nat) (h : i < l.length) :
    l.getD i Entry.dflt ∈ l := by
  rw [List.getD_eq_getElem l Entry.dflt h]
  exact List.getElem_mem h

/-- A `check` against a fresh table misses by fingerprint mismatch. -/
theorem check_fresh (t : TranspositionTable) (f : Nat) (min_q : Int) (fps : List Nat)
    (hfresh : FreshFor t fps) (hf : f ∈ fps) (hnu : f ≠ Entry.UNUSED) :
    t.check f min_q = (none, t) := by
  apply t.check_mismatch
  by_cases hi : t.find f < t.table.length
  · intro hc
    exact hfresh _ (getD_mem_of_lt _ _ hi) (by rw [hc]; exact hf)
  · rw [List.getD_eq_default _ _ (le_of_not_lt hi)]
    exact fun hc => hnu hc.symm

theorem freshFor_update (t : TranspositionTable) (f : Nat) (v : Val) (q : Int)
    (fps : List Nat) (hfresh : FreshFor t fps) (hf : f ∉ fps) :
    FreshFor (t.update f v q) fps := by
  intro e he
  rw [TranspositionTable.update] at he
  by_cases hc : (t.table.getD (t.find f) Entry.dflt).fingerprint = Entry.UNUSED ∨
      q ≥ (t.table.getD (t.find f) Entry.dflt).q
  · rw [if_pos hc] at he
    rcases List.mem_or_eq_of_mem_set he with he' | rfl
    · exact hfresh e he'
    · exact hf
  · rw [if_neg hc] at he
    exact hfresh e he

/-- Generating responses over a table holding none of the successors'
fingerprints: every preliminary value comes from the static evaluator with
quality `SEF_QUALITY = 0`, and the resulting table is again fresh for any
fingerprints it was fresh for and that were not among the successors'. -/
theorem buildResponses_fresh (g : GameTree S) :
    ∀ (xs : List S) (t : TranspositionTable),
      ((xs.map g.fingerprint).Pairwise (· ≠ ·)) →
      FreshFor t (xs.map g.fingerprint) →
      (∀ x ∈ xs, g.fingerprint x ≠ Entry.UNUSED) →
      (g.buildResponses t xs).1 = xs.map (fun x => ⟨x, g.evaluate x, SEF_QUALITY⟩) := by
  intro xs
  induction xs with
  | nil => intro t _ _ _; rfl
  | cons x xs ih =>
    intro t hdist hfresh hnu
    have hmiss : t.check (g.fingerprint x) (-1) = (none, t) :=
      check_fresh t (g.fingerprint x) (-1) ((x :: xs).map g.fingerprint) hfresh
        (by simp) (hnu x (List.mem_cons_self x xs))
    have hgpv : g.get_preliminary_value t x
        = ((g.evaluate x, SEF_QUALITY),
           t.update (g.fingerprint x) (g.evaluate x) SEF_QUALITY) := by
      simp only [get_preliminary_value, hmiss]
    have hfresh' : FreshFor (t.update (g.fingerprint x) (g.evaluate x) SEF_QUALITY)
        (xs.map g.fingerprint) := by
      apply freshFor_update
      · exact freshFor_sublist t _ _ hfresh (by intro f hf; simp at hf ⊢; exact Or.inr hf)
      · rw [List.map_cons] at hdist
        intro hc
        rcases List.mem_map.mp hc with ⟨y, hy, hyf⟩
        exact (List.pairwise_cons.mp hdist).1 _ (List.mem_map_of_mem g.fingerprint hy) hyf.symm
    rw [buildResponses, hgpv]
    simp only [List.map_cons]
    rw [ih _ (by rw [List.map_cons] at hdist; exact (List.pairwise_cons.mp hdist).2) hfresh'
      (fun y hy => hnu y (List.mem_cons_of_mem x hy))]

end GameTree

/-! ## The loops at the depth horizon (no recursion possible) -/

theorem foldl_max_const (b : Val) :
    ∀ l : List Val, (∀ v ∈ l, v ≤ b) → l.foldl max b = b := by
  intro l
  induction l with
  | nil => intro _; rfl
  | cons v l ih =>
    intro h
    rw [List.foldl_cons, max_eq_left (h v (List.mem_cons_self v l))]
    exact ih fun w hw => h w (List.mem_cons_of_mem v hw)

theorem foldl_min_const (b : Val) :
    ∀ l : List Val, (∀ v ∈ l, b ≤ v) → l.foldl min b = b := by
  intro l
  induction l with
  | nil => intro _; rfl
  | cons v l ih =>
    intro h
    rw [List.foldl_cons, min_eq_left (h v (List.mem_cons_self v l))]
    exact ih fun w hw => h w (List.mem_cons_of_mem v hw)

namespace GameTree

theorem resolveA_noRec (g : GameTree S) (recurse : RecSearch S) (t : TranspositionTable)
    (r : Response S) (alpha beta : Val) (depth : Int) (hd : g.max_depth ≤ depth + 1) :
    resolveA g recurse t r alpha beta depth = (r, t) := by
  rw [resolveA, if_neg]
  intro hc
  exact absurd hc.2.1 (not_lt.mpr hd)

theorem resolveB_noRec (g : GameTree S) (recurse : RecSearch S) (t : TranspositionTable)
    (r : Response S) (alpha beta : Val) (depth : Int) (hd : g.max_depth ≤ depth + 1) :
    resolveB g recurse t r alpha beta depth = (r, t) := by
  rw [resolveB, if_neg]
  intro hc
  exact absurd hc.2.1 (not_lt.mpr hd)

/-- At the depth horizon, Alice's loop against an un-pruning `beta = ⊤`
computes exactly the running maximum of the response values. -/
theorem aliceLoop_value_noRec (g : GameTree S) (recurse : RecSearch S) (depth : Int)
    (hd : g.max_depth ≤ depth + 1) :
    ∀ (rs : List (Response S)) (t : TranspositionTable) (alpha : Val) (bs : Option S)
      (bv : Val) (bq : Int),
      (∀ r ∈ rs, r.value ≤ g.alice_wins_value) →
      (aliceLoop g recurse t rs alpha ⊤ depth bs bv bq).2.1
        = (rs.map Response.value).foldl max bv := by
  intro rs
  induction rs with
  | nil => intro t alpha bs bv bq _; simp [aliceLoop]
  | cons r rest ih =>
    intro t alpha bs bv bq h
    have hr := h r (List.mem_cons_self r rest)
    have hrest : ∀ x ∈ rest, x.value ≤ g.alice_wins_value :=
      fun x hx => h x (List.mem_cons_of_mem r hx)
    simp only [aliceLoop, resolveA_noRec g recurse t r alpha ⊤ depth hd]
    by_cases h1 : bv < r.value
    · rw [if_pos h1]
      by_cases h2 : g.alice_wins_value ≤ r.value
      · rw [if_pos h2]
        simp only [List.map_cons, List.foldl_cons]
        rw [max_eq_right (le_of_lt h1)]
        exact (foldl_max_const r.value (rest.map Response.value) (by
          intro v hv
          rcases List.mem_map.mp hv with ⟨x, hx, rfl⟩
          exact le_trans (hrest x hx) (le_trans h2 (le_refl r.value)))).symm
      · rw [if_neg h2, if_neg (not_top_lt)]
        rw [ih t _ (some r.state) r.value r.quality hrest]
        simp only [List.map_cons, List.foldl_cons]
        rw [max_eq_right (le_of_lt h1)]
    · rw [if_neg h1]
      rw [ih t alpha bs bv bq hrest]
      simp only [List.map_cons, List.foldl_cons]
      rw [max_eq_left (not_lt.mp h1)]

/-- At the depth horizon, Bob's loop against an un-pruning `alpha = ⊥`
computes exactly the running minimum of the response values. -/
theorem bobLoop_value_noRec (g : GameTree S) (recurse : RecSearch S) (depth : Int)
    (hd : g.max_depth ≤ depth + 1) :
    ∀ (rs : List (Response S)) (t : TranspositionTable) (beta : Val) (bs : Option S)
      (bv : Val) (bq : Int),
      (∀ r ∈ rs, g.bob_wins_value ≤ r.value) →
      (bobLoop g recurse t rs ⊥ beta depth bs bv bq).2.1
        = (rs.map Response.value).foldl min bv := by
  intro rs
  induction rs with
  | nil => intro t beta bs bv bq _; simp [bobLoop]
  | cons r rest ih =>
    intro t beta bs bv bq h
    have hr := h r (List.mem_cons_self r rest)
    have hrest : ∀ x ∈ rest, g.bob_wins_value ≤ x.value :=
      fun x hx => h x (List.mem_cons_of_mem r hx)
    simp only [bobLoop, resolveB_noRec g recurse t r ⊥ beta depth hd]
    by_cases h1 : r.value < bv
    · rw [if_pos h1]
      by_cases h2 : r.value ≤ g.bob_wins_value
      · rw [if_pos h2]
        simp only [List.map_cons, List.foldl_cons]
        rw [min_eq_right (le_of_lt h1)]
        exact (foldl_min_const r.value (rest.map Response.value) (by
          intro v hv
          rcases List.mem_map.mp hv with ⟨x, hx, rfl⟩
          exact le_trans h2 (hrest x hx))).symm
      · rw [if_neg h2, if_neg (not_lt_bot)]
        rw [ih t _ (some r.state) r.value r.quality hrest]
        simp only [List.map_cons, List.foldl_cons]
        rw [min_eq_right (le_of_lt h1)]
    · rw [if_neg h1]
      rw [ih t beta bs bv bq hrest]
      simp only [List.map_cons, List.foldl_cons]
      rw [min_eq_left (not_lt.mp h1)]

/-- Once a best state is recorded, the loop always reports one. -/
theorem aliceLoop_isSome_of_some (g : GameTree S) (recurse : RecSearch S) :
    ∀ (rs : List (Response S)) (t : TranspositionTable) (alpha beta : Val) (depth : Int)
      (b : S) (bv : Val) (bq : Int),
      (aliceLoop g recurse t rs alpha beta depth (some b) bv bq).1.isSome := by
  intro rs
  induction rs with
  | nil => intro t alpha beta depth b bv bq; simp [aliceLoop]
  | cons r rest ih =>
    intro t alpha beta depth b bv bq
    rw [aliceLoop]
    by_cases h1 : bv < (resolveA g recurse t r alpha beta depth).1.value
    · rw [if_pos h1]
      by_cases h2 : g.alice_wins_value ≤ (resolveA g recurse t r alpha beta depth).1.value
      · rw [if_pos h2]; rfl
      · rw [if_neg h2]
        by_cases h3 : beta < (resolveA g recurse t r alpha beta depth).1.value
        · rw [if_pos h3]; rfl
        · rw [if_neg h3]
          exact ih _ _ _ _ _ _ _
    · rw [if_neg h1]
      exact ih _ _ _ _ _ _ _

theorem bobLoop_isSome_of_some (g : GameTree S) (recurse : RecSearch S) :
    ∀ (rs : List (Response S)) (t : TranspositionTable) (alpha beta : Val) (depth : Int)
      (b : S) (bv : Val) (bq : Int),
      (bobLoop g recurse t rs alpha beta depth (some b) bv bq).1.isSome := by
  intro rs
  induction rs with
  | nil => intro t alpha beta depth b bv bq; simp [bobLoop]
  | cons r rest ih =>
    intro t alpha beta depth b bv bq
    rw [bobLoop]
    by_cases h1 : (resolveB g recurse t r alpha beta depth).1.value < bv
    · rw [if_pos h1]
      by_cases h2 : (resolveB g recurse t r alpha beta depth).1.value ≤ g.bob_wins_value
      · rw [if_pos h2]; rfl
      · rw [if_neg h2]
        by_cases h3 : (resolveB g recurse t r alpha beta depth).1.value < alpha
        · rw [if_pos h3]; rfl
        · rw [if_neg h3]
          exact ih _ _ _ _ _ _ _
    · rw [if_neg h1]
      exact ih _ _ _ _ _ _ _

/-- From the initial accumulators, a nonempty response list whose values all
exceed `⊥` makes Alice's horizon loop return a best state. -/
theorem aliceLoop_isSome_noRec (g : GameTree S) (recurse : RecSearch S) (depth : Int)
    (hd : g.max_depth ≤ depth + 1) (rs : List (Response S)) (t : TranspositionTable)
    (alpha : Val) (hne : rs ≠ []) (hpos : ∀ r ∈ rs, ⊥ < r.value) :
    (aliceLoop g recurse t rs alpha ⊤ depth none ⊥ (-1)).1.isSome := by
  cases rs with
  | nil => exact absurd rfl hne
  | cons r rest =>
    simp only [aliceLoop, resolveA_noRec g recurse t r alpha ⊤ depth hd]
    rw [if_pos (hpos r (List.mem_cons_self r rest))]
    by_cases h2 : g.alice_wins_value ≤ r.value
    · rw [if_pos h2]; rfl
    · rw [if_neg h2, if_neg (not_top_lt)]
      exact aliceLoop_isSome_of_some g recurse rest t _ ⊤ depth r.state r.value r.quality

/-- Dual statement for Bob's horizon loop: values strictly below `⊤`. -/
theorem bobLoop_isSome_noRec (g : GameTree S) (recurse : RecSearch S) (depth : Int)
    (hd : g.max_depth ≤ depth + 1) (rs : List (Response S)) (t : TranspositionTable)
    (beta : Val) (hne : rs ≠ []) (hpos : ∀ r ∈ rs, r.value < ⊤) :
    (bobLoop g recurse t rs ⊥ beta depth none ⊤ (-1)).1.isSome := by
  cases rs with
  | nil => exact absurd rfl hne
  | cons r rest =>
    simp only [bobLoop, resolveB_noRec g recurse t r ⊥ beta depth hd]
    rw [if_pos (hpos r (List.mem_cons_self r rest))]
    by_cases h2 : r.value ≤ g.bob_wins_value
    · rw [if_pos h2]; rfl
    · rw [if_neg h2, if_neg (not_lt_bot)]
      exact bobLoop_isSome_of_some g recurse rest t ⊥ _ depth r.state r.value r.quality

end GameTree

namespace GameTree

/-- At or beyond the depth bound the naive minimax is the static value. -/
theorem naiveMinimax_horizon (g : GameTree S) (n : Nat) (b : Bool) (k : S) (d : Int)
    (hd : g.max_depth ≤ d) : naiveMinimax g n b k d = g.evaluate k := by
  cases n with
  | zero => rfl
  | succ n => rw [naiveMinimax, if_pos hd]

end GameTree

/-- C1 amended: with `max_depth = 1` (one ply, so no recursion and no reuse
of deeper cached values), an initially empty table, a root with at least one
successor, successors with pairwise-distinct valid fingerprints, and static
values inside the closed interval spanned by the finite win sentinels, the
value of the response returned by the root search (either player) equals the
naive full minimax value of depth `max_depth` for that root. -/
theorem C1_search_equivalence_amended (g : GameTree S) (t : TranspositionTable) (s : S)
    (n m : Nat)
    (hmd : g.max_depth = 1)
    (hempty : ∀ e ∈ t.table, e.fingerprint = Entry.UNUSED)
    (hne : g.response_generator s 0 ≠ [])
    (hdist : ((g.response_generator s 0).map g.fingerprint).Pairwise (· ≠ ·))
    (hfp : ∀ k ∈ g.response_generator s 0, g.fingerprint k ≠ Entry.UNUSED)
    (hrange : ∀ k ∈ g.response_generator s 0,
      g.bob_wins_value ≤ g.evaluate k ∧ g.evaluate k ≤ g.alice_wins_value)
    (hbw : g.bob_wins_value ≠ ⊥) (haw : g.alice_wins_value ≠ ⊤) :
    ((g.alice_search (n + 1) t s ⊥ ⊤ 0).1.map Response.value
      = some (GameTree.naiveMinimax g (m + 1) true s 0)) ∧
    ((g.bob_search (n + 1) t s ⊥ ⊤ 0).1.map Response.value
      = some (GameTree.naiveMinimax g (m + 1) false s 0)) := by
  have hd : g.max_depth ≤ 0 + 1 := by omega
  have hfresh : GameTree.FreshFor t ((g.response_generator s 0).map g.fingerprint) := by
    intro e he hmem
    rcases List.mem_map.mp hmem with ⟨k, hk, hkf⟩
    exact hfp k hk (by rw [hkf, hempty e he])
  have hgen1 : (g.generate_responses t s 0).1
      = (g.response_generator s 0).map (fun k => ⟨k, g.evaluate k, SEF_QUALITY⟩) :=
    GameTree.buildResponses_fresh g (g.response_generator s 0) t hdist hfresh hfp
  have hval : ∀ rs : List (Response S),
      rs = (g.generate_responses t s 0).1 →
      ∀ r ∈ rs, ∃ k ∈ g.response_generator s 0, r = ⟨k, g.evaluate k, SEF_QUALITY⟩ := by
    intro rs hrs r hr
    rw [hrs, hgen1] at hr
    rcases List.mem_map.mp hr with ⟨k, hk, hkr⟩
    exact ⟨k, hk, hkr.symm⟩
  have hnaive_max : GameTree.naiveMinimax g (m + 1) true s 0
      = ((g.response_generator s 0).map g.evaluate).foldl max ⊥ := by
    rw [GameTree.naiveMinimax, if_neg (by omega), if_neg (by
        simp only [List.isEmpty_iff]; exact hne), if_pos rfl]
    congr 1
    exact List.map_congr_left fun k hk =>
      g.naiveMinimax_horizon m false k 1 (by omega)
  have hnaive_min : GameTree.naiveMinimax g (m + 1) false s 0
      = ((g.response_generator s 0).map g.evaluate).foldl min ⊤ := by
    rw [GameTree.naiveMinimax, if_neg (by omega), if_neg (by
        simp only [List.isEmpty_iff]; exact hne)]
    rw [if_neg (by simp)]
    congr 1
    exact List.map_congr_left fun k hk =>
      g.naiveMinimax_horizon m true k 1 (by omega)
  constructor
  · -- Alice's root frame
    rw [GameTree.alice_search, GameTree.search]
    rw [if_neg (by
      rw [hgen1]
      simp only [List.isEmpty_iff, List.map_eq_nil_iff]
      exact hne)]
    rcases hL : GameTree.aliceLoop g
        (fun t' s' a' b' d' => GameTree.search g n false t' s' a' b' d')
        (g.generate_responses t s 0).2 (GameTree.sortDesc (g.generate_responses t s 0).1)
        ⊥ ⊤ 0 none ⊥ (-1) with ⟨bs, bv, bq, pr, t2⟩
    have hsome : bs.isSome := by
      have := GameTree.aliceLoop_isSome_noRec g
        (fun t' s' a' b' d' => GameTree.search g n false t' s' a' b' d') 0 hd
        (GameTree.sortDesc (g.generate_responses t s 0).1) (g.generate_responses t s 0).2 ⊥
        (by
          intro hc
          have hp := GameTree.sortDesc_perm (g.generate_responses t s 0).1
          rw [hc] at hp
          have h0 : (g.generate_responses t s 0).1 = [] := List.perm_nil.mp hp.symm
          rw [hgen1] at h0
          exact hne (List.map_eq_nil_iff.mp h0))
        (by
          intro r hr
          have hr' := (GameTree.sortDesc_perm (g.generate_responses t s 0).1).mem_iff.mp hr
          rcases hval _ rfl r hr' with ⟨k, hk, rfl⟩
          have := (hrange k hk).1
          calc (⊥ : Val) < g.bob_wins_value := Ne.bot_lt hbw
            _ ≤ g.evaluate k := this)
      rw [hL] at this
      exact this
    rcases Option.isSome_iff_exists.mp hsome with ⟨b, rfl⟩
    have hbv : bv = ((g.response_generator s 0).map g.evaluate).foldl max ⊥ := by
      have := GameTree.aliceLoop_value_noRec g
        (fun t' s' a' b' d' => GameTree.search g n false t' s' a' b' d') 0 hd
        (GameTree.sortDesc (g.generate_responses t s 0).1) (g.generate_responses t s 0).2
        ⊥ none ⊥ (-1)
        (by
          intro r hr
          have hr' := (GameTree.sortDesc_perm (g.generate_responses t s 0).1).mem_iff.mp hr
          rcases hval _ rfl r hr' with ⟨k, hk, rfl⟩
          exact (hrange k hk).2)
      rw [hL] at this
      have hperm : List.Perm ((GameTree.sortDesc (g.generate_responses t s 0).1).map
          Response.value) (((g.response_generator s 0).map
            (fun k => (⟨k, g.evaluate k, SEF_QUALITY⟩ : Response S))).map Response.value) := by
        apply List.Perm.map
        rw [← hgen1]
        exact GameTree.sortDesc_perm _
      have hfold := hperm.foldl_eq' (fun x _ y _ z => Max.right_comm z x y) ⊥
      rw [List.map_map] at hfold
      simpa using this.trans (hfold.trans rfl)
    rw [hnaive_max, ← hbv]
    rfl
  · -- Bob's root frame
    rw [GameTree.bob_search, GameTree.search]
    rw [if_neg (by
      rw [hgen1]
      simp only [List.isEmpty_iff, List.map_eq_nil_iff]
      exact hne)]
    rcases hL : GameTree.bobLoop g
        (fun t' s' a' b' d' => GameTree.search g n true t' s' a' b' d')
        (g.generate_responses t s 0).2 (GameTree.sortAsc (g.generate_responses t s 0).1)
        ⊥ ⊤ 0 none ⊤ (-1) with ⟨bs, bv, bq, pr, t2⟩
    have hsome : bs.isSome := by
      have := GameTree.bobLoop_isSome_noRec g
        (fun t' s' a' b' d' => GameTree.search g n true t' s' a' b' d') 0 hd
        (GameTree.sortAsc (g.generate_responses t s 0).1) (g.generate_responses t s 0).2 ⊤
        (by
          intro hc
          have hp := GameTree.sortAsc_perm (g.generate_responses t s 0).1
          rw [hc] at hp
          have h0 : (g.generate_responses t s 0).1 = [] := List.perm_nil.mp hp.symm
          rw [hgen1] at h0
          exact hne (List.map_eq_nil_iff.mp h0))
        (by
          intro r hr
          have hr' := (GameTree.sortAsc_perm (g.generate_responses t s 0).1).mem_iff.mp hr
          rcases hval _ rfl r hr' with ⟨k, hk, rfl⟩
          have := (hrange k hk).2
          calc g.evaluate k ≤ g.alice_wins_value := this
            _ < ⊤ := Ne.lt_top haw)
      rw [hL] at this
      exact this
    rcases Option.isSome_iff_exists.mp hsome with ⟨b, rfl⟩
    have hbv : bv = ((g.response_generator s 0).map g.evaluate).foldl min ⊤ := by
      have := GameTree.bobLoop_value_noRec g
        (fun t' s' a' b' d' => GameTree.search g n true t' s' a' b' d') 0 hd
        (GameTree.sortAsc (g.generate_responses t s 0).1) (g.generate_responses t s 0).2
        ⊤ none ⊤ (-1)
        (by
          intro r hr
          have hr' := (GameTree.sortAsc_perm (g.generate_responses t s 0).1).mem_iff.mp hr
          rcases hval _ rfl r hr' with ⟨k, hk, rfl⟩
          exact (hrange k hk).1)
      rw [hL] at this
      have hperm : List.Perm ((GameTree.sortAsc (g.generate_responses t s 0).1).map
          Response.value) (((g.response_generator s 0).map
            (fun k => (⟨k, g.evaluate k, SEF_QUALITY⟩ : Response S))).map Response.value) := by
        apply List.Perm.map
        rw [← hgen1]
        exact GameTree.sortAsc_perm _
      have hfold := hperm.foldl_eq' (fun x _ y _ z => min_right_comm z x y) ⊤
      rw [List.map_map] at hfold
      simpa using this.trans (hfold.trans rfl)
    rw [hnaive_min, ← hbv]
    rfl

/-! ## Claim C1: counterexample and witness -/

/-- Fingerprints of the C1 counterexample game: states 1 and 5 collide. -/
def cex1Fp : Nat → Nat := fun s =>
  if s = 0 then 1 else if s = 1 then 2 else if s = 2 then 3
  else if s = 3 then 4 else if s = 4 then 5 else if s = 5 then 2 else 6

/-- Static values of the C1 counterexample game. -/
def cex1Eval : Nat → Val := fun s =>
  if s = 0 then fv 0 else if s = 1 then fv 1 else if s = 2 then fv 0
  else if s = 3 then fv 10 else if s = 4 then fv 40 else if s = 5 then fv 50 else fv 0

/-- Successors of the C1 counterexample game: root 0 has Bob nodes 1 and 2;
node 1 leads to leaf 3, node 2 leads to leaves 5 and 4. -/
def cex1Gen : Nat → Int → List Nat := fun s d =>
  if s = 0 ∧ d = 0 then [1, 2] else if s = 1 ∧ d = 1 then [3]
  else if s = 2 ∧ d = 1 then [5, 4] else []

/-- The C1 counterexample game: depth bound 2, sentinels at ±1000, and a
fingerprint collision between the interior state 1 and the leaf state 5. -/
def cex1G : GameTree Nat :=
  ⟨cex1Fp, fun s => if s = 0 then 0 else 1, cex1Eval, fv 1000, fv (-1000), cex1Gen, 2⟩

/-- Counterexample to C1 as stated: all of its hypotheses hold (values within
the sentinels, Alice to move at root 0, at least one successor, initially
empty table), yet the root search returns a response of value 10 while the
naive full minimax of depth 2 values the root at 40: the transposition table
lets the depth-1 search result for state 1 stand in for the preliminary
value of the colliding leaf state 5 under root's other successor. -/
theorem C1_counterexample :
    (∀ s, cex1G.bob_wins_value ≤ cex1G.evaluate s ∧
      cex1G.evaluate s ≤ cex1G.alice_wins_value) ∧
    cex1G.whose_turn 0 = 0 ∧
    cex1G.response_generator 0 0 ≠ [] ∧
    (∀ e ∈ (TranspositionTable.new 8 10).table, e.fingerprint = Entry.UNUSED) ∧
    (cex1G.alice_search cex1G.fullFuel (TranspositionTable.new 8 10) 0 ⊥ ⊤ 0).1.map
      Response.value = some (fv 10) ∧
    GameTree.naiveMinimax cex1G cex1G.fullFuel true 0 0 = fv 40 ∧
    (fv 10 : Val) ≠ fv 40 := by
  refine ⟨?_, by decide, by decide, by decide, by decide, by decide, by decide⟩
  intro s
  show fv (-1000) ≤ cex1Eval s ∧ cex1Eval s ≤ fv 1000
  unfold cex1Eval
  split_ifs <;> decide

/-- Witness for the amended C1 on a concrete one-ply game with distinct
fingerprints: both root searches agree with the naive minimax of depth 1. -/
theorem C1_search_equivalence_amended_witness :
    ((cw2G.alice_search 1 cw2T 0 ⊥ ⊤ 0).1.map Response.value
      = some (GameTree.naiveMinimax cw2G 1 true 0 0)) ∧
    ((cw2G.bob_search 1 cw2T 0 ⊥ ⊤ 0).1.map Response.value
      = some (GameTree.naiveMinimax cw2G 1 false 0 0)) :=
  C1_search_equivalence_amended cw2G cw2T 0 0 0 (by decide) (by decide) (by decide)
    (by decide) (by decide) (by decide) (by decide) (by decide)

/-! ## Claim C9: counterexample and amended determinism -/

/-- The C9 counterexample game: Alice's root 0 has Bob nodes 1 and 2 with
static values 1 and 2, each forced to a leaf of value 10, depth bound 2. -/
def cex9G : GameTree Nat :=
  ⟨fun s => s + 1, fun s => if s = 0 then 0 else 1,
   fun s => if s = 1 then fv 1 else if s = 2 then fv 2
     else if s = 3 then fv 10 else if s = 4 then fv 10 else fv 0,
   fv 1000, fv (-1000),
   fun s d => if s = 0 ∧ d = 0 then [1, 2] else if s = 1 ∧ d = 1 then [3]
     else if s = 2 ∧ d = 1 then [4] else [],
   2⟩

/-- Counterexample to C9 as stated: from an empty shared table the first
`find_best_response` on root 0 returns state 2, but the second call —
seeded by the cache the first call filled — returns state 1: both searched
values tie at 10, and the warmed cache flips the stable sort's tiebreak.
The two best-reply fingerprints (3 and 2) differ. -/
theorem C9_counterexample :
    (∀ e ∈ (TranspositionTable.new 8 10).table, e.fingerprint = Entry.UNUSED) ∧
    (cex9G.find_best_response (TranspositionTable.new 8 10) 0).1 = some 2 ∧
    (cex9G.find_best_response
      (cex9G.find_best_response (TranspositionTable.new 8 10) 0).2 0).1 = some 1 ∧
    cex9G.fingerprint 2 ≠ cex9G.fingerprint 1 := by
  decide

namespace GameTree

/-- The table tells no lies about the listed states: any entry carrying one
of their fingerprints holds exactly that state's static value at quality
`SEF_QUALITY`. -/
def FaithfulFor (g : GameTree S) (t : TranspositionTable) (L : List S) : Prop :=
  ∀ e ∈ t.table, ∀ x ∈ L, e.fingerprint = g.fingerprint x →
    e.value = g.evaluate x ∧ e.q = SEF_QUALITY

theorem faithfulFor_of_empty (g : GameTree S) (t : TranspositionTable) (L : List S)
    (hempty : ∀ e ∈ t.table, e.fingerprint = Entry.UNUSED)
    (hfp : ∀ x ∈ L, g.fingerprint x ≠ Entry.UNUSED) :
    FaithfulFor g t L :=
  fun e he x hx hfx => absurd (hempty e he ▸ hfx).symm (hfp x hx)

theorem faithfulFor_update_of (g : GameTree S) (t : TranspositionTable) (L : List S)
    (f : Nat) (v : Val) (q : Int)
    (h : ∀ x ∈ L, f = g.fingerprint x → v = g.evaluate x ∧ q = SEF_QUALITY)
    (hL : FaithfulFor g t L) : FaithfulFor g (t.update f v q) L := by
  intro e he x hx hfx
  rw [TranspositionTable.update] at he
  by_cases hc : (t.table.getD (t.find f) Entry.dflt).fingerprint = Entry.UNUSED ∨
      q ≥ (t.table.getD (t.find f) Entry.dflt).q
  · rw [if_pos hc] at he
    rcases List.mem_or_eq_of_mem_set he with he' | rfl
    · exact hL e he' x hx hfx
    · exact h x hx hfx
  · rw [if_neg hc] at he
    exact hL e he x hx hfx

theorem faithfulFor_check (g : GameTree S) (t : TranspositionTable) (L : List S)
    (f : Nat) (mq : Int) (hL : FaithfulFor g t L) :
    FaithfulFor g (t.check f mq).2 L := by
  have hslot : FaithfulFor g (t.agedSlot f) L := by
    intro e he x hx hfx
    by_cases hi : t.find f < t.table.length
    · rcases List.mem_or_eq_of_mem_set he with he' | rfl
      · exact hL e he' x hx hfx
      · exact hL _ (getD_mem_of_lt _ _ hi) x hx hfx
    · rw [TranspositionTable.agedSlot] at he
      simp only [List.set_eq_of_length_le (le_of_not_lt hi)] at he
      exact hL e he x hx hfx
  by_cases hm : (t.table.getD (t.find f) Entry.dflt).fingerprint = f
  · by_cases hq : 0 ≤ mq ∧ (t.table.getD (t.find f) Entry.dflt).q < mq
    · rw [t.check_quality_miss f mq hm hq.1 hq.2]
      exact hslot
    · rw [t.check_hit f mq hm hq]
      exact hslot
  · rw [t.check_mismatch f mq hm]
    exact hL

/-- Among states whose mapped fingerprints are pairwise distinct, equal
fingerprints force equal elements. -/
theorem mem_eq_of_fp_eq (g : GameTree S) :
    ∀ L : List S, (L.map g.fingerprint).Pairwise (· ≠ ·) →
      ∀ x ∈ L, ∀ y ∈ L, g.fingerprint x = g.fingerprint y → x = y := by
  intro L
  induction L with
  | nil => intro _ x hx; exact absurd hx (List.not_mem_nil x)
  | cons h tl ih =>
    intro hdist x hx y hy hxy
    rw [List.map_cons, List.pairwise_cons] at hdist
    rcases List.mem_cons.mp hx with rfl | hx'
    · rcases List.mem_cons.mp hy with rfl | hy'
      · rfl
      · exact absurd hxy (hdist.1 _ (List.mem_map_of_mem g.fingerprint hy'))
    · rcases List.mem_cons.mp hy with rfl | hy'
      · exact absurd hxy.symm (hdist.1 _ (List.mem_map_of_mem g.fingerprint hx'))
      · exact ih hdist.2 x hx' y hy' hxy

/-- Resolving a preliminary value over a faithful table yields the static
value at quality 0 (by evaluation on a miss, from the faithful entry on a
hit) and preserves faithfulness. -/
theorem get_preliminary_value_faithful (g : GameTree S) (L : List S)
    (hdist : (L.map g.fingerprint).Pairwise (· ≠ ·))
    (hfp : ∀ x ∈ L, g.fingerprint x ≠ Entry.UNUSED)
    (t : TranspositionTable) (x : S) (hx : x ∈ L) (hL : FaithfulFor g t L) :
    (g.get_preliminary_value t x).1 = (g.evaluate x, SEF_QUALITY) ∧
    FaithfulFor g (g.get_preliminary_value t x).2 L := by
  rcases hchk : t.check (g.fingerprint x) (-1) with ⟨res, t'⟩
  cases res with
  | none =>
    have hmiss := g.get_preliminary_value_miss t x t' hchk
    constructor
    · rw [hmiss]
      rfl
    · rw [hmiss]
      apply faithfulFor_update_of
      · intro y hy hfy
        have hxy : x = y := mem_eq_of_fp_eq g L hdist x hx y hy hfy
        exact ⟨by rw [hxy], rfl⟩
      · obtain ⟨rfl, _⟩ := check_neg_one_miss_eq t (g.fingerprint x) t' hchk
        exact hL
  | some vq =>
    rcases vq with ⟨v, q⟩
    have hhit := g.get_preliminary_value_hit t x v q t' hchk
    have hm : (t.table.getD (t.find (g.fingerprint x)) Entry.dflt).fingerprint
        = g.fingerprint x := by
      by_contra hm
      rw [t.check_mismatch (g.fingerprint x) (-1) hm] at hchk
      simp at hchk
    have hlt : t.find (g.fingerprint x) < t.table.length := by
      apply t.find_lt_of_slot_live
      rw [hm]
      exact hfp x hx
    have hslot := hL _ (getD_mem_of_lt _ _ hlt) x hx hm
    have heq := t.check_hit (g.fingerprint x) (-1) hm (by omega)
    rw [heq] at hchk
    have hv : v = g.evaluate x := by
      have := (Prod.mk.injEq _ _ _ _).mp hchk
      have h1 := this.1
      simp only [Option.some.injEq, Prod.mk.injEq] at h1
      rw [← h1.1, hslot.1]
    have hq : q = SEF_QUALITY := by
      have := (Prod.mk.injEq _ _ _ _).mp hchk
      have h1 := this.1
      simp only [Option.some.injEq, Prod.mk.injEq] at h1
      rw [← h1.2, hslot.2]
    constructor
    · rw [hhit, hv, hq]
    · rw [hhit]
      have ht' : t' = t.agedSlot (g.fingerprint x) := by
        have := (Prod.mk.injEq _ _ _ _).mp hchk
        exact this.2.symm
      rw [ht']
      exact (by
        have := faithfulFor_check g t L (g.fingerprint x) (-1) hL
        rw [heq] at this
        exact this)

/-- Generating responses over a faithful table yields exactly the static
seeds and preserves faithfulness. -/
theorem buildResponses_faithful (g : GameTree S) (L : List S)
    (hdist : (L.map g.fingerprint).Pairwise (· ≠ ·))
    (hfp : ∀ x ∈ L, g.fingerprint x ≠ Entry.UNUSED) :
    ∀ (xs : List S) (t : TranspositionTable), (∀ x ∈ xs, x ∈ L) → FaithfulFor g t L →
      (g.buildResponses t xs).1
        = xs.map (fun x => ⟨x, g.evaluate x, SEF_QUALITY⟩) ∧
      FaithfulFor g (g.buildResponses t xs).2 L := by
  intro xs
  induction xs with
  | nil => intro t _ hL; exact ⟨rfl, hL⟩
  | cons x xs ih =>
    intro t hmem hL
    have hx := hmem x (List.mem_cons_self x xs)
    have hgpv := get_preliminary_value_faithful g L hdist hfp t x hx hL
    have ihx := ih (g.get_preliminary_value t x).2
      (fun y hy => hmem y (List.mem_cons_of_mem x hy)) hgpv.2
    constructor
    · rw [buildResponses]
      simp only [List.map_cons]
      rw [ihx.1]
      have : (g.get_preliminary_value t x).1.1 = g.evaluate x := by rw [hgpv.1]
      have h2 : (g.get_preliminary_value t x).1.2 = SEF_QUALITY := by rw [hgpv.1]
      rw [this, h2]
    · rw [buildResponses]
      exact ihx.2

end GameTree

namespace GameTree

/-- At the depth horizon Alice's loop neither reads nor writes the table:
its decision part is a function of the responses and window alone, and the
incoming table is returned unchanged. -/
theorem aliceLoop_noRec_table (g : GameTree S) (recurse : RecSearch S) (depth : Int)
    (hd : g.max_depth ≤ depth + 1) :
    ∀ (rs : List (Response S)) (alpha beta : Val) (bs : Option S) (bv : Val) (bq : Int),
      ∃ bs' bv' bq' pr', ∀ t : TranspositionTable,
        aliceLoop g recurse t rs alpha beta depth bs bv bq = (bs', bv', bq', pr', t) := by
  intro rs
  induction rs with
  | nil => intro alpha beta bs bv bq; exact ⟨bs, bv, bq, false, fun t => rfl⟩
  | cons r rest ih =>
    intro alpha beta bs bv bq
    by_cases h1 : bv < r.value
    · by_cases h2 : g.alice_wins_value ≤ r.value
      · refine ⟨some r.state, r.value, r.quality, false, fun t => ?_⟩
        simp only [aliceLoop, resolveA_noRec g recurse t r alpha beta depth hd]
        rw [if_pos h1, if_pos h2]
      · by_cases h3 : beta < r.value
        · refine ⟨some r.state, r.value, r.quality, true, fun t => ?_⟩
          simp only [aliceLoop, resolveA_noRec g recurse t r alpha beta depth hd]
          rw [if_pos h1, if_neg h2, if_pos h3]
        · rcases ih (if alpha < r.value then r.value else alpha) beta (some r.state)
            r.value r.quality with ⟨bs', bv', bq', pr', hX⟩
          refine ⟨bs', bv', bq', pr', fun t => ?_⟩
          simp only [aliceLoop, resolveA_noRec g recurse t r alpha beta depth hd]
          rw [if_pos h1, if_neg h2, if_neg h3]
          exact hX t
    · rcases ih alpha beta bs bv bq with ⟨bs', bv', bq', pr', hX⟩
      refine ⟨bs', bv', bq', pr', fun t => ?_⟩
      simp only [aliceLoop, resolveA_noRec g recurse t r alpha beta depth hd]
      rw [if_neg h1]
      exact hX t

/-- Dual of `aliceLoop_noRec_table` for Bob's loop. -/
theorem bobLoop_noRec_table (g : GameTree S) (recurse : RecSearch S) (depth : Int)
    (hd : g.max_depth ≤ depth + 1) :
    ∀ (rs : List (Response S)) (alpha beta : Val) (bs : Option S) (bv : Val) (bq : Int),
      ∃ bs' bv' bq' pr', ∀ t : TranspositionTable,
        bobLoop g recurse t rs alpha beta depth bs bv bq = (bs', bv', bq', pr', t) := by
  intro rs
  induction rs with
  | nil => intro alpha beta bs bv bq; exact ⟨bs, bv, bq, false, fun t => rfl⟩
  | cons r rest ih =>
    intro alpha beta bs bv bq
    by_cases h1 : r.value < bv
    · by_cases h2 : r.value ≤ g.bob_wins_value
      · refine ⟨some r.state, r.value, r.quality, false, fun t => ?_⟩
        simp only [bobLoop, resolveB_noRec g recurse t r alpha beta depth hd]
        rw [if_pos h1, if_pos h2]
      · by_cases h3 : r.value < alpha
        · refine ⟨some r.state, r.value, r.quality, true, fun t => ?_⟩
          simp only [bobLoop, resolveB_noRec g recurse t r alpha beta depth hd]
          rw [if_pos h1, if_neg h2, if_pos h3]
        · rcases ih alpha (if r.value < beta then r.value else beta) (some r.state)
            r.value r.quality with ⟨bs', bv', bq', pr', hX⟩
          refine ⟨bs', bv', bq', pr', fun t => ?_⟩
          simp only [bobLoop, resolveB_noRec g recurse t r alpha beta depth hd]
          rw [if_pos h1, if_neg h2, if_neg h3]
          exact hX t
    · rcases ih alpha beta bs bv bq with ⟨bs', bv', bq', pr', hX⟩
      refine ⟨bs', bv', bq', pr', fun t => ?_⟩
      simp only [bobLoop, resolveB_noRec g recurse t r alpha beta depth hd]
      rw [if_neg h1]
      exact hX t

end GameTree

namespace GameTree

/-- A one-ply Alice root search over any table faithful to the successors
returns one fixed response (independent of the table) and leaves a table
that is again faithful to the successors. -/
theorem alice_search_faithful (g : GameTree S) (n : Nat) (s : S)
    (hmd : g.max_depth = 1)
    (hne : g.response_generator s 0 ≠ [])
    (hdist : ((g.response_generator s 0).map g.fingerprint).Pairwise (· ≠ ·))
    (hfp : ∀ k ∈ g.response_generator s 0, g.fingerprint k ≠ Entry.UNUSED)
    (hroot : ∀ k ∈ g.response_generator s 0, g.fingerprint s ≠ g.fingerprint k)
    (hrange : ∀ k ∈ g.response_generator s 0,
      g.bob_wins_value ≤ g.evaluate k ∧ g.evaluate k ≤ g.alice_wins_value)
    (hbw : g.bob_wins_value ≠ ⊥) :
    ∃ r : Response S, ∀ t : TranspositionTable, FaithfulFor g t (g.response_generator s 0) →
      (g.alice_search (n + 1) t s ⊥ ⊤ 0).1 = some r ∧
      FaithfulFor g (g.alice_search (n + 1) t s ⊥ ⊤ 0).2 (g.response_generator s 0) := by
  have hd : g.max_depth ≤ 0 + 1 := by omega
  set RS := (g.response_generator s 0).map
    (fun k => (⟨k, g.evaluate k, SEF_QUALITY⟩ : Response S)) with hRS
  rcases aliceLoop_noRec_table g
      (fun t' s' a' b' d' => search g n false t' s' a' b' d') 0 hd
      (sortDesc RS) ⊥ ⊤ none ⊥ (-1) with ⟨bs, bv, bq, pr, hX⟩
  have hsome : bs.isSome := by
    have := aliceLoop_isSome_noRec g
      (fun t' s' a' b' d' => search g n false t' s' a' b' d') 0 hd (sortDesc RS)
      (TranspositionTable.new 1 1) ⊥
      (by
        intro hc
        have hp := sortDesc_perm RS
        rw [hc] at hp
        have h0 : RS = [] := List.perm_nil.mp hp.symm
        rw [hRS] at h0
        exact hne (List.map_eq_nil_iff.mp h0))
      (by
        intro r hr
        have hr' := (sortDesc_perm RS).mem_iff.mp hr
        rw [hRS] at hr'
        rcases List.mem_map.mp hr' with ⟨k, hk, rfl⟩
        calc (⊥ : Val) < g.bob_wins_value := Ne.bot_lt hbw
          _ ≤ g.evaluate k := (hrange k hk).1)
    rw [hX (TranspositionTable.new 1 1)] at this
    exact this
  rcases Option.isSome_iff_exists.mp hsome with ⟨b, rfl⟩
  refine ⟨⟨b, bv, bq + 1⟩, fun t hT => ?_⟩
  have hgen := buildResponses_faithful g (g.response_generator s 0) hdist hfp
    (g.response_generator s 0) t (fun x hx => hx) hT
  have hgen1 : (g.generate_responses t s 0).1 = RS := hgen.1
  have hgen2 : FaithfulFor g (g.generate_responses t s 0).2 (g.response_generator s 0) :=
    hgen.2
  have hsearch : g.alice_search (n + 1) t s ⊥ ⊤ 0
      = (some ⟨b, bv, bq + 1⟩,
         if pr then (g.generate_responses t s 0).2
         else (g.generate_responses t s 0).2.update (g.fingerprint s) bv (bq + 1)) := by
    rw [alice_search]
    rw [search]
    rw [if_neg (by
      rw [hgen1, hRS]
      simp only [List.isEmpty_iff, List.map_eq_nil_iff]
      exact hne)]
    rw [hgen1, hX (g.generate_responses t s 0).2]
  rw [hsearch]
  refine ⟨rfl, ?_⟩
  by_cases hpr : pr
  · rw [if_pos hpr]
    exact hgen2
  · rw [if_neg hpr]
    apply faithfulFor_update_of
    · intro x hx hfx
      exact absurd hfx (hroot x hx)
    · exact hgen2

/-- Dual of `alice_search_faithful` for a Bob root. -/
theorem bob_search_faithful (g : GameTree S) (n : Nat) (s : S)
    (hmd : g.max_depth = 1)
    (hne : g.response_generator s 0 ≠ [])
    (hdist : ((g.response_generator s 0).map g.fingerprint).Pairwise (· ≠ ·))
    (hfp : ∀ k ∈ g.response_generator s 0, g.fingerprint k ≠ Entry.UNUSED)
    (hroot : ∀ k ∈ g.response_generator s 0, g.fingerprint s ≠ g.fingerprint k)
    (hrange : ∀ k ∈ g.response_generator s 0,
      g.bob_wins_value ≤ g.evaluate k ∧ g.evaluate k ≤ g.alice_wins_value)
    (haw : g.alice_wins_value ≠ ⊤) :
    ∃ r : Response S, ∀ t : TranspositionTable, FaithfulFor g t (g.response_generator s 0) →
      (g.bob_search (n + 1) t s ⊥ ⊤ 0).1 = some r ∧
      FaithfulFor g (g.bob_search (n + 1) t s ⊥ ⊤ 0).2 (g.response_generator s 0) := by
  have hd : g.max_depth ≤ 0 + 1 := by omega
  set RS := (g.response_generator s 0).map
    (fun k => (⟨k, g.evaluate k, SEF_QUALITY⟩ : Response S)) with hRS
  rcases bobLoop_noRec_table g
      (fun t' s' a' b' d' => search g n true t' s' a' b' d') 0 hd
      (sortAsc RS) ⊥ ⊤ none ⊤ (-1) with ⟨bs, bv, bq, pr, hX⟩
  have hsome : bs.isSome := by
    have := bobLoop_isSome_noRec g
      (fun t' s' a' b' d' => search g n true t' s' a' b' d') 0 hd (sortAsc RS)
      (TranspositionTable.new 1 1) ⊤
      (by
        intro hc
        have hp := sortAsc_perm RS
        rw [hc] at hp
        have h0 : RS = [] := List.perm_nil.mp hp.symm
        rw [hRS] at h0
        exact hne (List.map_eq_nil_iff.mp h0))
      (by
        intro r hr
        have hr' := (sortAsc_perm RS).mem_iff.mp hr
        rw [hRS] at hr'
        rcases List.mem_map.mp hr' with ⟨k, hk, rfl⟩
        calc g.evaluate k ≤ g.alice_wins_value := (hrange k hk).2
          _ < ⊤ := Ne.lt_top haw)
    rw [hX (TranspositionTable.new 1 1)] at this
    exact this
  rcases Option.isSome_iff_exists.mp hsome with ⟨b, rfl⟩
  refine ⟨⟨b, bv, bq + 1⟩, fun t hT => ?_⟩
  have hgen := buildResponses_faithful g (g.response_generator s 0) hdist hfp
    (g.response_generator s 0) t (fun x hx => hx) hT
  have hgen1 : (g.generate_responses t s 0).1 = RS := hgen.1
  have hgen2 : FaithfulFor g (g.generate_responses t s 0).2 (g.response_generator s 0) :=
    hgen.2
  have hsearch : g.bob_search (n + 1) t s ⊥ ⊤ 0
      = (some ⟨b, bv, bq + 1⟩,
         if pr then (g.generate_responses t s 0).2
         else (g.generate_responses t s 0).2.update (g.fingerprint s) bv (bq + 1)) := by
    rw [bob_search]
    rw [search]
    rw [if_neg (by
      rw [hgen1, hRS]
      simp only [List.isEmpty_iff, List.map_eq_nil_iff]
      exact hne)]
    rw [hgen1, hX (g.generate_responses t s 0).2]
  rw [hsearch]
  refine ⟨rfl, ?_⟩
  by_cases hpr : pr
  · rw [if_pos hpr]
    exact hgen2
  · rw [if_neg hpr]
    apply faithfulFor_update_of
    · intro x hx hfx
      exact absurd hfx (hroot x hx)
    · exact hgen2

end GameTree

namespace GameTree

theorem find_best_response_alice_eq (g : GameTree S) (t : TranspositionTable) (s : S)
    (hw : g.whose_turn s = 0) (r : Response S) (tO : TranspositionTable)
    (h : g.alice_search g.fullFuel t s ⊥ ⊤ 0 = (some r, tO)) :
    g.find_best_response t s = (some r.state, tO) := by
  simp only [find_best_response, if_pos hw]
  rw [h]

theorem find_best_response_bob_eq (g : GameTree S) (t : TranspositionTable) (s : S)
    (hw : ¬g.whose_turn s = 0) (r : Response S) (tO : TranspositionTable)
    (h : g.bob_search g.fullFuel t s ⊥ ⊤ 0 = (some r, tO)) :
    g.find_best_response t s = (some r.state, tO) := by
  simp only [find_best_response, if_neg hw]
  rw [h]

end GameTree

/-- C9 amended: with `max_depth = 1`, an initially empty shared table, a
nonempty successor list with pairwise-distinct valid fingerprints all
different from the root's own, and static values inside the finite
sentinels, two successive `find_best_response` calls on the same root return
the same best-reply state — and hence the same fingerprint.  (At deeper
bounds the warmed cache can legally flip the stable sort's tiebreak, as the
counterexample shows.) -/
theorem C9_determinism_amended (g : GameTree S) (t : TranspositionTable) (s : S)
    (hmd : g.max_depth = 1)
    (hempty : ∀ e ∈ t.table, e.fingerprint = Entry.UNUSED)
    (hne : g.response_generator s 0 ≠ [])
    (hdist : ((g.response_generator s 0).map g.fingerprint).Pairwise (· ≠ ·))
    (hfp : ∀ k ∈ g.response_generator s 0, g.fingerprint k ≠ Entry.UNUSED)
    (hroot : ∀ k ∈ g.response_generator s 0, g.fingerprint s ≠ g.fingerprint k)
    (hrange : ∀ k ∈ g.response_generator s 0,
      g.bob_wins_value ≤ g.evaluate k ∧ g.evaluate k ≤ g.alice_wins_value)
    (hbw : g.bob_wins_value ≠ ⊥) (haw : g.alice_wins_value ≠ ⊤) :
    ∃ b : S, (g.find_best_response t s).1 = some b ∧
      (g.find_best_response (g.find_best_response t s).2 s).1 = some b ∧
      g.fingerprint b = g.fingerprint b := by
  have hT0 : GameTree.FaithfulFor g t (g.response_generator s 0) :=
    GameTree.faithfulFor_of_empty g t (g.response_generator s 0) hempty hfp
  by_cases hw : g.whose_turn s = 0
  · rcases GameTree.alice_search_faithful g g.max_depth.toNat s hmd hne hdist hfp hroot
      hrange hbw with ⟨r, hr⟩
    have h1 := hr t hT0
    have hpair1 : g.alice_search (g.max_depth.toNat + 1) t s ⊥ ⊤ 0
        = (some r, (g.alice_search (g.max_depth.toNat + 1) t s ⊥ ⊤ 0).2) := by
      conv_lhs => rw [← Prod.mk.eta (p := g.alice_search (g.max_depth.toNat + 1) t s ⊥ ⊤ 0)]
      rw [h1.1]
    have hfbr1 := g.find_best_response_alice_eq t s hw r _ hpair1
    have h2 := hr (g.alice_search (g.max_depth.toNat + 1) t s ⊥ ⊤ 0).2 h1.2
    have hpair2 : g.alice_search (g.max_depth.toNat + 1)
          ((g.alice_search (g.max_depth.toNat + 1) t s ⊥ ⊤ 0).2) s ⊥ ⊤ 0
        = (some r, (g.alice_search (g.max_depth.toNat + 1)
            ((g.alice_search (g.max_depth.toNat + 1) t s ⊥ ⊤ 0).2) s ⊥ ⊤ 0).2) := by
      conv_lhs => rw [← Prod.mk.eta (p := g.alice_search (g.max_depth.toNat + 1)
        ((g.alice_search (g.max_depth.toNat + 1) t s ⊥ ⊤ 0).2) s ⊥ ⊤ 0)]
      rw [h2.1]
    have hfbr2 := g.find_best_response_alice_eq _ s hw r _ hpair2
    refine ⟨r.state, by rw [hfbr1], ?_, rfl⟩
    rw [hfbr1]
    simp only []
    rw [hfbr2]
  · rcases GameTree.bob_search_faithful g g.max_depth.toNat s hmd hne hdist hfp hroot
      hrange haw with ⟨r, hr⟩
    have h1 := hr t hT0
    have hpair1 : g.bob_search (g.max_depth.toNat + 1) t s ⊥ ⊤ 0
        = (some r, (g.bob_search (g.max_depth.toNat + 1) t s ⊥ ⊤ 0).2) := by
      conv_lhs => rw [← Prod.mk.eta (p := g.bob_search (g.max_depth.toNat + 1) t s ⊥ ⊤ 0)]
      rw [h1.1]
    have hfbr1 := g.find_best_response_bob_eq t s hw r _ hpair1
    have h2 := hr (g.bob_search (g.max_depth.toNat + 1) t s ⊥ ⊤ 0).2 h1.2
    have hpair2 : g.bob_search (g.max_depth.toNat + 1)
          ((g.bob_search (g.max_depth.toNat + 1) t s ⊥ ⊤ 0).2) s ⊥ ⊤ 0
        = (some r, (g.bob_search (g.max_depth.toNat + 1)
            ((g.bob_search (g.max_depth.toNat + 1) t s ⊥ ⊤ 0).2) s ⊥ ⊤ 0).2) := by
      conv_lhs => rw [← Prod.mk.eta (p := g.bob_search (g.max_depth.toNat + 1)
        ((g.bob_search (g.max_depth.toNat + 1) t s ⊥ ⊤ 0).2) s ⊥ ⊤ 0)]
      rw [h2.1]
    have hfbr2 := g.find_best_response_bob_eq _ s hw r _ hpair2
    refine ⟨r.state, by rw [hfbr1], ?_, rfl⟩
    rw [hfbr1]
    simp only []
    rw [hfbr2]

/-- Witness for the amended C9 on the concrete one-ply game: both calls pick
state 2. -/
theorem C9_determinism_amended_witness :
    ∃ b : Nat, (cw2G.find_best_response cw2T 0).1 = some b ∧
      (cw2G.find_best_response (cw2G.find_best_response cw2T 0).2 0).1 = some b ∧
      cw2G.fingerprint b = cw2G.fingerprint b :=
  C9_determinism_amended cw2G cw2T 0 (by decide) (by decide) (by decide) (by decide)
    (by decide) (by decide) (by decide) (by decide) (by decide)

/-! ## Claim C8: no-reply handling and the sanity assertions -/

namespace GameTree

/-- A value inside the closed interval spanned by the win sentinels. -/
def InRange (g : GameTree S) (v : Val) : Prop :=
  g.bob_wins_value ≤ v ∧ v ≤ g.alice_wins_value

/-- Every live entry of the table carries an in-range value of nonnegative
quality. -/
def TableOk (g : GameTree S) (t : TranspositionTable) : Prop :=
  ∀ e ∈ t.table, e.fingerprint ≠ Entry.UNUSED → InRange g e.value ∧ 0 ≤ e.q

theorem tableOk_check (g : GameTree S) (t : TranspositionTable) (f : Nat) (mq : Int)
    (hT : TableOk g t) : TableOk g (t.check f mq).2 := by
  have hslot : TableOk g (t.agedSlot f) := by
    intro e he hlive
    by_cases hi : t.find f < t.table.length
    · rcases List.mem_or_eq_of_mem_set he with he' | rfl
      · exact hT e he' hlive
      · have h0 := hT (t.table.getD (t.find f) Entry.dflt) (getD_mem_of_lt _ _ hi) hlive
        exact h0
    · rw [TranspositionTable.agedSlot] at he
      simp only [List.set_eq_of_length_le (le_of_not_lt hi)] at he
      exact hT e he hlive
  by_cases hm : (t.table.getD (t.find f) Entry.dflt).fingerprint = f
  · by_cases hq : 0 ≤ mq ∧ (t.table.getD (t.find f) Entry.dflt).q < mq
    · rw [t.check_quality_miss f mq hm hq.1 hq.2]
      exact hslot
    · rw [t.check_hit f mq hm hq]
      exact hslot
  · rw [t.check_mismatch f mq hm]
    exact hT

theorem tableOk_update (g : GameTree S) (t : TranspositionTable) (f : Nat) (v : Val)
    (q : Int) (hT : TableOk g t) (hv : InRange g v) (hq : 0 ≤ q) :
    TableOk g (t.update f v q) := by
  intro e he hlive
  rw [TranspositionTable.update] at he
  by_cases hc : (t.table.getD (t.find f) Entry.dflt).fingerprint = Entry.UNUSED ∨
      q ≥ (t.table.getD (t.find f) Entry.dflt).q
  · rw [if_pos hc] at he
    rcases List.mem_or_eq_of_mem_set he with he' | rfl
    · exact hT e he' hlive
    · exact ⟨hv, hq⟩
  · rw [if_neg hc] at he
    exact hT e he hlive

theorem check_some_ok (g : GameTree S) (t : TranspositionTable) (f : Nat) (mq : Int)
    (v : Val) (q : Int) (hT : TableOk g t) (hf : f ≠ Entry.UNUSED)
    (h : (t.check f mq).1 = some (v, q)) : InRange g v ∧ 0 ≤ q := by
  by_cases hm : (t.table.getD (t.find f) Entry.dflt).fingerprint = f
  · by_cases hq : 0 ≤ mq ∧ (t.table.getD (t.find f) Entry.dflt).q < mq
    · rw [t.check_quality_miss f mq hm hq.1 hq.2] at h
      simp at h
    · rw [t.check_hit f mq hm hq] at h
      simp only [Option.some.injEq, Prod.mk.injEq] at h
      have hlt : t.find f < t.table.length := by
        apply t.find_lt_of_slot_live
        rw [hm]
        exact hf
      have := hT _ (getD_mem_of_lt _ _ hlt) (by rw [hm]; exact hf)
      rw [← h.1, ← h.2]
      exact this
  · rw [t.check_mismatch f mq hm] at h
    simp at h

theorem get_preliminary_value_ok (g : GameTree S) (t : TranspositionTable) (x : S)
    (hEv : ∀ y : S, InRange g (g.evaluate y))
    (hfpv : ∀ y : S, g.fingerprint y ≠ Entry.UNUSED) (hT : TableOk g t) :
    InRange g (g.get_preliminary_value t x).1.1 ∧ 0 ≤ (g.get_preliminary_value t x).1.2 ∧
      TableOk g (g.get_preliminary_value t x).2 := by
  rcases hchk : t.check (g.fingerprint x) (-1) with ⟨res, t'⟩
  have ht' : TableOk g t' := by
    have := tableOk_check g t (g.fingerprint x) (-1) hT
    rw [hchk] at this
    exact this
  cases res with
  | none =>
    rw [g.get_preliminary_value_miss t x t' hchk]
    exact ⟨hEv x, le_refl 0, tableOk_update g t' _ _ _ ht' (hEv x) (le_refl 0)⟩
  | some vq =>
    rcases vq with ⟨v, q⟩
    rw [g.get_preliminary_value_hit t x v q t' hchk]
    have hok := check_some_ok g t (g.fingerprint x) (-1) v q hT (hfpv x) (by rw [hchk])
    exact ⟨hok.1, hok.2, ht'⟩

theorem buildResponses_ok (g : GameTree S)
    (hEv : ∀ y : S, InRange g (g.evaluate y))
    (hfpv : ∀ y : S, g.fingerprint y ≠ Entry.UNUSED) :
    ∀ (xs : List S) (t : TranspositionTable), TableOk g t →
      (∀ r ∈ (g.buildResponses t xs).1, InRange g r.value ∧ 0 ≤ r.quality) ∧
      TableOk g (g.buildResponses t xs).2 := by
  intro xs
  induction xs with
  | nil =>
    intro t hT
    exact ⟨fun r hr => absurd hr (List.not_mem_nil r), hT⟩
  | cons x xs ih =>
    intro t hT
    have hx := get_preliminary_value_ok g t x hEv hfpv hT
    have ihx := ih (g.get_preliminary_value t x).2 hx.2.2
    constructor
    · intro r hr
      rw [buildResponses] at hr
      rcases List.mem_cons.mp hr with rfl | hr'
      · exact ⟨hx.1, hx.2.1⟩
      · exact ihx.1 r hr'
    · rw [buildResponses]
      exact ihx.2

end GameTree

namespace GameTree

/-- The recursive search handed to a loop keeps tables in range and returns
only in-range responses of nonnegative quality. -/
def RecOk (g : GameTree S) (recurse : RecSearch S) : Prop :=
  ∀ (t : TranspositionTable) (s : S) (alpha beta : Val) (depth : Int), TableOk g t →
    TableOk g (recurse t s alpha beta depth).2 ∧
    ∀ rr, (recurse t s alpha beta depth).1 = some rr → InRange g rr.value ∧ 0 ≤ rr.quality

theorem resolveA_ok (g : GameTree S) (recurse : RecSearch S) (hrec : RecOk g recurse)
    (t : TranspositionTable) (r : Response S) (alpha beta : Val) (depth : Int)
    (hT : TableOk g t) (hr : InRange g r.value ∧ 0 ≤ r.quality) :
    InRange g (resolveA g recurse t r alpha beta depth).1.value ∧
    0 ≤ (resolveA g recurse t r alpha beta depth).1.quality ∧
    TableOk g (resolveA g recurse t r alpha beta depth).2 := by
  rw [resolveA]
  by_cases hc : r.value < g.alice_wins_value ∧ depth + 1 < g.max_depth ∧
      r.quality < g.max_depth - (depth + 1)
  · rw [if_pos hc]
    rcases hrr : recurse t r.state alpha beta (depth + 1) with ⟨res, t2⟩
    have hrec' := hrec t r.state alpha beta (depth + 1) hT
    rw [hrr] at hrec'
    cases res with
    | none => exact ⟨hr.1, hr.2, hrec'.1⟩
    | some br =>
      have := hrec'.2 br rfl
      exact ⟨this.1, this.2, hrec'.1⟩
  · rw [if_neg hc]
    exact ⟨hr.1, hr.2, hT⟩

theorem resolveB_ok (g : GameTree S) (recurse : RecSearch S) (hrec : RecOk g recurse)
    (t : TranspositionTable) (r : Response S) (alpha beta : Val) (depth : Int)
    (hT : TableOk g t) (hr : InRange g r.value ∧ 0 ≤ r.quality) :
    InRange g (resolveB g recurse t r alpha beta depth).1.value ∧
    0 ≤ (resolveB g recurse t r alpha beta depth).1.quality ∧
    TableOk g (resolveB g recurse t r alpha beta depth).2 := by
  rw [resolveB]
  by_cases hc : g.bob_wins_value < r.value ∧ depth + 1 < g.max_depth ∧
      r.quality < g.max_depth - (depth + 1)
  · rw [if_pos hc]
    rcases hrr : recurse t r.state alpha beta (depth + 1) with ⟨res, t2⟩
    have hrec' := hrec t r.state alpha beta (depth + 1) hT
    rw [hrr] at hrec'
    cases res with
    | none => exact ⟨hr.1, hr.2, hrec'.1⟩
    | some ar =>
      have := hrec'.2 ar rfl
      exact ⟨this.1, this.2, hrec'.1⟩
  · rw [if_neg hc]
    exact ⟨hr.1, hr.2, hT⟩

/-- Alice's loop preserves the table invariant, and — from a good
accumulator or from the initial `best_value = -∞` with at least one
response — ends with a populated best state, an in-range best value and a
nonnegative best quality. -/
theorem aliceLoop_ok (g : GameTree S) (recurse : RecSearch S) (hrec : RecOk g recurse)
    (hbw : g.bob_wins_value ≠ ⊥) :
    ∀ (rs : List (Response S)) (t : TranspositionTable) (alpha beta : Val) (depth : Int)
      (bs : Option S) (bv : Val) (bq : Int),
      TableOk g t → (∀ r ∈ rs, InRange g r.value ∧ 0 ≤ r.quality) →
      TableOk g (aliceLoop g recurse t rs alpha beta depth bs bv bq).2.2.2.2 ∧
      ((bs.isSome ∧ InRange g bv ∧ 0 ≤ bq) ∨ (bv = ⊥ ∧ rs ≠ []) →
        (aliceLoop g recurse t rs alpha beta depth bs bv bq).1.isSome ∧
        InRange g (aliceLoop g recurse t rs alpha beta depth bs bv bq).2.1 ∧
        0 ≤ (aliceLoop g recurse t rs alpha beta depth bs bv bq).2.2.1) := by
  intro rs
  induction rs with
  | nil =>
    intro t alpha beta depth bs bv bq hT hrs
    refine ⟨hT, ?_⟩
    rintro (hgood | ⟨_, hne⟩)
    · simpa [aliceLoop] using hgood
    · exact absurd rfl hne
  | cons r rest ih =>
    intro t alpha beta depth bs bv bq hT hrs
    have hr0 := hrs r (List.mem_cons_self r rest)
    have hrest : ∀ x ∈ rest, InRange g x.value ∧ 0 ≤ x.quality :=
      fun x hx => hrs x (List.mem_cons_of_mem r hx)
    have hres := resolveA_ok g recurse hrec t r alpha beta depth hT hr0
    rw [aliceLoop]
    by_cases h1 : bv < (resolveA g recurse t r alpha beta depth).1.value
    · rw [if_pos h1]
      by_cases h2 : g.alice_wins_value ≤ (resolveA g recurse t r alpha beta depth).1.value
      · rw [if_pos h2]
        exact ⟨hres.2.2, fun _ => ⟨rfl, hres.1, hres.2.1⟩⟩
      · rw [if_neg h2]
        by_cases h3 : beta < (resolveA g recurse t r alpha beta depth).1.value
        · rw [if_pos h3]
          exact ⟨hres.2.2, fun _ => ⟨rfl, hres.1, hres.2.1⟩⟩
        · rw [if_neg h3]
          have := ih (resolveA g recurse t r alpha beta depth).2
            (if alpha < (resolveA g recurse t r alpha beta depth).1.value then
              (resolveA g recurse t r alpha beta depth).1.value else alpha) beta depth
            (some (resolveA g recurse t r alpha beta depth).1.state)
            (resolveA g recurse t r alpha beta depth).1.value
            (resolveA g recurse t r alpha beta depth).1.quality hres.2.2 hrest
          exact ⟨this.1, fun _ => this.2 (Or.inl ⟨rfl, hres.1, hres.2.1⟩)⟩
    · rw [if_neg h1]
      have := ih (resolveA g recurse t r alpha beta depth).2 alpha beta depth bs bv bq
        hres.2.2 hrest
      refine ⟨this.1, ?_⟩
      rintro (hgood | ⟨hbot, _⟩)
      · exact this.2 (Or.inl hgood)
      · exfalso
        rw [hbot] at h1
        have hv := hres.1.1
        have : (⊥ : Val) < (resolveA g recurse t r alpha beta depth).1.value :=
          lt_of_lt_of_le (Ne.bot_lt hbw) hv
        exact h1 this

/-- Dual of `aliceLoop_ok` for Bob's loop (initial `best_value = +∞`). -/
theorem bobLoop_ok (g : GameTree S) (recurse : RecSearch S) (hrec : RecOk g recurse)
    (haw : g.alice_wins_value ≠ ⊤) :
    ∀ (rs : List (Response S)) (t : TranspositionTable) (alpha beta : Val) (depth : Int)
      (bs : Option S) (bv : Val) (bq : Int),
      TableOk g t → (∀ r ∈ rs, InRange g r.value ∧ 0 ≤ r.quality) →
      TableOk g (bobLoop g recurse t rs alpha beta depth bs bv bq).2.2.2.2 ∧
      ((bs.isSome ∧ InRange g bv ∧ 0 ≤ bq) ∨ (bv = ⊤ ∧ rs ≠ []) →
        (bobLoop g recurse t rs alpha beta depth bs bv bq).1.isSome ∧
        InRange g (bobLoop g recurse t rs alpha beta depth bs bv bq).2.1 ∧
        0 ≤ (bobLoop g recurse t rs alpha beta depth bs bv bq).2.2.1) := by
  intro rs
  induction rs with
  | nil =>
    intro t alpha beta depth bs bv bq hT hrs
    refine ⟨hT, ?_⟩
    rintro (hgood | ⟨_, hne⟩)
    · simpa [bobLoop] using hgood
    · exact absurd rfl hne
  | cons r rest ih =>
    intro t alpha beta depth bs bv bq hT hrs
    have hr0 := hrs r (List.mem_cons_self r rest)
    have hrest : ∀ x ∈ rest, InRange g x.value ∧ 0 ≤ x.quality :=
      fun x hx => hrs x (List.mem_cons_of_mem r hx)
    have hres := resolveB_ok g recurse hrec t r alpha beta depth hT hr0
    rw [bobLoop]
    by_cases h1 : (resolveB g recurse t r alpha beta depth).1.value < bv
    · rw [if_pos h1]
      by_cases h2 : (resolveB g recurse t r alpha beta depth).1.value ≤ g.bob_wins_value
      · rw [if_pos h2]
        exact ⟨hres.2.2, fun _ => ⟨rfl, hres.1, hres.2.1⟩⟩
      · rw [if_neg h2]
        by_cases h3 : (resolveB g recurse t r alpha beta depth).1.value < alpha
        · rw [if_pos h3]
          exact ⟨hres.2.2, fun _ => ⟨rfl, hres.1, hres.2.1⟩⟩
        · rw [if_neg h3]
          have := ih (resolveB g recurse t r alpha beta depth).2 alpha
            (if (resolveB g recurse t r alpha beta depth).1.value < beta then
              (resolveB g recurse t r alpha beta depth).1.value else beta) depth
            (some (resolveB g recurse t r alpha beta depth).1.state)
            (resolveB g recurse t r alpha beta depth).1.value
            (resolveB g recurse t r alpha beta depth).1.quality hres.2.2 hrest
          exact ⟨this.1, fun _ => this.2 (Or.inl ⟨rfl, hres.1, hres.2.1⟩)⟩
    · rw [if_neg h1]
      have := ih (resolveB g recurse t r alpha beta depth).2 alpha beta depth bs bv bq
        hres.2.2 hrest
      refine ⟨this.1, ?_⟩
      rintro (hgood | ⟨htop, _⟩)
      · exact this.2 (Or.inl hgood)
      · exfalso
        rw [htop] at h1
        have hv := hres.1.2
        have : (resolveB g recurse t r alpha beta depth).1.value < ⊤ :=
          lt_of_le_of_lt hv (Ne.lt_top haw)
        exact h1 this

end GameTree

namespace GameTree

theorem buildResponses_length (g : GameTree S) :
    ∀ (xs : List S) (t : TranspositionTable), (g.buildResponses t xs).1.length = xs.length := by
  intro xs
  induction xs with
  | nil => intro t; rfl
  | cons x xs ih =>
    intro t
    rw [buildResponses]
    simp only [List.length_cons]
    rw [ih]

/-- The central induction: at any fuel, both searches preserve the table
invariant, return only in-range responses of quality at least 1, and — with
positive fuel — return a response whenever the generator is nonempty. -/
theorem search_ok (g : GameTree S)
    (hEv : ∀ y : S, InRange g (g.evaluate y))
    (hfpv : ∀ y : S, g.fingerprint y ≠ Entry.UNUSED)
    (hbw : g.bob_wins_value ≠ ⊥) (haw : g.alice_wins_value ≠ ⊤) :
    ∀ (n : Nat) (isMax : Bool) (t : TranspositionTable) (s : S) (alpha beta : Val)
      (depth : Int), TableOk g t →
      TableOk g (search g n isMax t s alpha beta depth).2 ∧
      (∀ r, (search g n isMax t s alpha beta depth).1 = some r →
        InRange g r.value ∧ 1 ≤ r.quality) ∧
      (1 ≤ n → g.response_generator s depth ≠ [] →
        (search g n isMax t s alpha beta depth).1.isSome) := by
  intro n
  induction n with
  | zero =>
    intro isMax t s alpha beta depth hT
    refine ⟨hT, fun r hr => ?_, fun h1 => absurd h1 (by omega)⟩
    rw [show search g 0 isMax t s alpha beta depth = (none, t) from by cases isMax <;> rfl]
      at hr
    simp at hr
  | succ n ih =>
    intro isMax t s alpha beta depth hT
    have hrecB : RecOk g (fun t' s' a' b' d' => search g n false t' s' a' b' d') := by
      intro t' s' a' b' d' hT'
      have h := ih false t' s' a' b' d' hT'
      exact ⟨h.1, fun rr hrr => ⟨(h.2.1 rr hrr).1, by have := (h.2.1 rr hrr).2; omega⟩⟩
    have hrecA : RecOk g (fun t' s' a' b' d' => search g n true t' s' a' b' d') := by
      intro t' s' a' b' d' hT'
      have h := ih true t' s' a' b' d' hT'
      exact ⟨h.1, fun rr hrr => ⟨(h.2.1 rr hrr).1, by have := (h.2.1 rr hrr).2; omega⟩⟩
    have hgen := buildResponses_ok g hEv hfpv (g.response_generator s depth) t hT
    cases isMax with
    | true =>
      by_cases hemp : (g.generate_responses t s depth).1.isEmpty
      · have hform : search g (n + 1) true t s alpha beta depth
            = (none, (g.generate_responses t s depth).2) := by
          rw [search, if_pos hemp]
        rw [hform]
        refine ⟨hgen.2, fun r hr => by simp at hr, fun _ hne => ?_⟩
        exfalso
        apply hne
        have := g.buildResponses_length (g.response_generator s depth) t
        rw [List.isEmpty_iff] at hemp
        have h0 : (g.response_generator s depth).length = 0 := by
          rw [← this]
          rw [show (g.generate_responses t s depth).1
            = (g.buildResponses t (g.response_generator s depth)).1 from rfl] at hemp
          rw [hemp]
          rfl
        exact List.length_eq_zero.mp h0
      · have hsortne : sortDesc (g.generate_responses t s depth).1 ≠ [] := by
          intro hc
          have hp := sortDesc_perm (g.generate_responses t s depth).1
          rw [hc] at hp
          rw [List.perm_nil.mp hp.symm] at hemp
          exact hemp rfl
        have hsortok : ∀ r ∈ sortDesc (g.generate_responses t s depth).1,
            InRange g r.value ∧ 0 ≤ r.quality := by
          intro r hr
          exact hgen.1 r ((sortDesc_perm _).mem_iff.mp hr)
        rcases hL : aliceLoop g (fun t' s' a' b' d' => search g n false t' s' a' b' d')
            (g.generate_responses t s depth).2 (sortDesc (g.generate_responses t s depth).1)
            alpha beta depth none ⊥ (-1) with ⟨bs, bv, bq, pr, t2⟩
        have hloop := aliceLoop_ok g _ hrecB hbw (sortDesc (g.generate_responses t s depth).1)
          (g.generate_responses t s depth).2 alpha beta depth none ⊥ (-1) hgen.2 hsortok
        rw [hL] at hloop
        have hgood := hloop.2 (Or.inr ⟨rfl, hsortne⟩)
        rcases Option.isSome_iff_exists.mp hgood.1 with ⟨b, rfl⟩
        have hform : search g (n + 1) true t s alpha beta depth
            = (some ⟨b, bv, bq + 1⟩,
               if pr then t2 else t2.update (g.fingerprint s) bv (bq + 1)) := by
          rw [search, if_neg hemp, hL]
        rw [hform]
        refine ⟨?_, fun r hr => ?_, fun _ _ => rfl⟩
        · by_cases hpr : pr
          · rw [if_pos hpr]
            exact hloop.1
          · rw [if_neg hpr]
            have hq0 : (0 : Int) ≤ bq := hgood.2.2
            exact tableOk_update g t2 _ bv (bq + 1) hloop.1 hgood.2.1 (by omega)
        · simp only [Option.some.injEq] at hr
          have hq0 : (0 : Int) ≤ bq := hgood.2.2
          have hv0 : GameTree.InRange g bv := hgood.2.1
          rw [← hr]
          exact ⟨hv0, by show (1 : Int) ≤ bq + 1; omega⟩
    | false =>
      by_cases hemp : (g.generate_responses t s depth).1.isEmpty
      · have hform : search g (n + 1) false t s alpha beta depth
            = (none, (g.generate_responses t s depth).2) := by
          rw [search, if_pos hemp]
        rw [hform]
        refine ⟨hgen.2, fun r hr => by simp at hr, fun _ hne => ?_⟩
        exfalso
        apply hne
        have := g.buildResponses_length (g.response_generator s depth) t
        rw [List.isEmpty_iff] at hemp
        have h0 : (g.response_generator s depth).length = 0 := by
          rw [← this]
          rw [show (g.generate_responses t s depth).1
            = (g.buildResponses t (g.response_generator s depth)).1 from rfl] at hemp
          rw [hemp]
          rfl
        exact List.length_eq_zero.mp h0
      · have hsortne : sortAsc (g.generate_responses t s depth).1 ≠ [] := by
          intro hc
          have hp := sortAsc_perm (g.generate_responses t s depth).1
          rw [hc] at hp
          rw [List.perm_nil.mp hp.symm] at hemp
          exact hemp rfl
        have hsortok : ∀ r ∈ sortAsc (g.generate_responses t s depth).1,
            InRange g r.value ∧ 0 ≤ r.quality := by
          intro r hr
          exact hgen.1 r ((sortAsc_perm _).mem_iff.mp hr)
        rcases hL : bobLoop g (fun t' s' a' b' d' => search g n true t' s' a' b' d')
            (g.generate_responses t s depth).2 (sortAsc (g.generate_responses t s depth).1)
            alpha beta depth none ⊤ (-1) with ⟨bs, bv, bq, pr, t2⟩
        have hloop := bobLoop_ok g _ hrecA haw (sortAsc (g.generate_responses t s depth).1)
          (g.generate_responses t s depth).2 alpha beta depth none ⊤ (-1) hgen.2 hsortok
        rw [hL] at hloop
        have hgood := hloop.2 (Or.inr ⟨rfl, hsortne⟩)
        rcases Option.isSome_iff_exists.mp hgood.1 with ⟨b, rfl⟩
        have hform : search g (n + 1) false t s alpha beta depth
            = (some ⟨b, bv, bq + 1⟩,
               if pr then t2 else t2.update (g.fingerprint s) bv (bq + 1)) := by
          rw [search, if_neg hemp, hL]
        rw [hform]
        refine ⟨?_, fun r hr => ?_, fun _ _ => rfl⟩
        · by_cases hpr : pr
          · rw [if_pos hpr]
            exact hloop.1
          · rw [if_neg hpr]
            have hq0 : (0 : Int) ≤ bq := hgood.2.2
            exact tableOk_update g t2 _ bv (bq + 1) hloop.1 hgood.2.1 (by omega)
        · simp only [Option.some.injEq] at hr
          have hq0 : (0 : Int) ≤ bq := hgood.2.2
          have hv0 : GameTree.InRange g bv := hgood.2.1
          rw [← hr]
          exact ⟨hv0, by show (1 : Int) ≤ bq + 1; omega⟩

end GameTree

/-- C8: `find_best_response` returns `None` exactly when the generator
yields no successor for the root; and when successors exist and every value
in play (static values and cached values) lies in the closed interval
spanned by the finite win sentinels, the root search returns a response and
the sanity assertions hold: the best value is finite (neither `-∞` nor
`+∞`, being in range), the pre-increment best quality is nonnegative (the
returned quality is at least 1), and the best state is populated. -/
theorem C8_no_reply_and_asserts (g : GameTree S) (t : TranspositionTable) (s : S)
    (hEv : ∀ y : S, g.bob_wins_value ≤ g.evaluate y ∧ g.evaluate y ≤ g.alice_wins_value)
    (hfpv : ∀ y : S, g.fingerprint y ≠ Entry.UNUSED)
    (hT : GameTree.TableOk g t)
    (hbw : g.bob_wins_value ≠ ⊥) (haw : g.alice_wins_value ≠ ⊤) :
    ((g.find_best_response t s).1 = none ↔ g.response_generator s 0 = []) ∧
    (∀ r, (g.alice_search g.fullFuel t s ⊥ ⊤ 0).1 = some r →
      g.bob_wins_value ≤ r.value ∧ r.value ≤ g.alice_wins_value ∧
      r.value ≠ ⊥ ∧ r.value ≠ ⊤ ∧ 1 ≤ r.quality) ∧
    (∀ r, (g.bob_search g.fullFuel t s ⊥ ⊤ 0).1 = some r →
      g.bob_wins_value ≤ r.value ∧ r.value ≤ g.alice_wins_value ∧
      r.value ≠ ⊥ ∧ r.value ≠ ⊤ ∧ 1 ≤ r.quality) ∧
    (g.response_generator s 0 ≠ [] →
      (g.alice_search g.fullFuel t s ⊥ ⊤ 0).1.isSome ∧
      (g.bob_search g.fullFuel t s ⊥ ⊤ 0).1.isSome) := by
  have hok := GameTree.search_ok g hEv hfpv hbw haw
  have hfuel : 1 ≤ g.fullFuel := by
    rw [GameTree.fullFuel]
    omega
  have hA := hok g.fullFuel true t s ⊥ ⊤ 0 hT
  have hB := hok g.fullFuel false t s ⊥ ⊤ 0 hT
  have hsome_of_ne : g.response_generator s 0 ≠ [] →
      (g.alice_search g.fullFuel t s ⊥ ⊤ 0).1.isSome ∧
      (g.bob_search g.fullFuel t s ⊥ ⊤ 0).1.isSome := by
    intro hne
    exact ⟨hA.2.2 hfuel hne, hB.2.2 hfuel hne⟩
  have hr_ok : ∀ (isMax : Bool) r,
      (GameTree.search g g.fullFuel isMax t s ⊥ ⊤ 0).1 = some r →
      g.bob_wins_value ≤ r.value ∧ r.value ≤ g.alice_wins_value ∧
      r.value ≠ ⊥ ∧ r.value ≠ ⊤ ∧ 1 ≤ r.quality := by
    intro isMax r hr
    have h : GameTree.InRange g r.value ∧ 1 ≤ r.quality := by
      cases isMax with
      | false => exact hB.2.1 r hr
      | true => exact hA.2.1 r hr
    refine ⟨h.1.1, h.1.2, ?_, ?_, h.2⟩
    · intro hc
      apply hbw
      rw [hc] at h
      exact le_bot_iff.mp h.1.1
    · intro hc
      apply haw
      rw [hc] at h
      exact top_le_iff.mp h.1.2
  refine ⟨?_, fun r hr => hr_ok true r hr, fun r hr => hr_ok false r hr, hsome_of_ne⟩
  constructor
  · intro hnone
    by_contra hne
    rcases hsome_of_ne hne with ⟨hsA, hsB⟩
    by_cases hw : g.whose_turn s = 0
    · rcases Option.isSome_iff_exists.mp hsA with ⟨r, hr⟩
      have hpair : g.alice_search g.fullFuel t s ⊥ ⊤ 0
          = (some r, (g.alice_search g.fullFuel t s ⊥ ⊤ 0).2) := by
        conv_lhs => rw [← Prod.mk.eta (p := g.alice_search g.fullFuel t s ⊥ ⊤ 0)]
        rw [hr]
      rw [g.find_best_response_alice_eq t s hw r _ hpair] at hnone
      simp at hnone
    · rcases Option.isSome_iff_exists.mp hsB with ⟨r, hr⟩
      have hpair : g.bob_search g.fullFuel t s ⊥ ⊤ 0
          = (some r, (g.bob_search g.fullFuel t s ⊥ ⊤ 0).2) := by
        conv_lhs => rw [← Prod.mk.eta (p := g.bob_search g.fullFuel t s ⊥ ⊤ 0)]
        rw [hr]
      rw [g.find_best_response_bob_eq t s hw r _ hpair] at hnone
      simp at hnone
  · intro hgen
    have hemp : (g.generate_responses t s 0).1.isEmpty := by
      rw [GameTree.generate_responses, hgen]
      rfl
    have hnone : ∀ isMax : Bool,
        (GameTree.search g (g.max_depth.toNat + 1) isMax t s ⊥ ⊤ 0) =
          (none, (g.generate_responses t s 0).2) := by
      intro isMax
      cases isMax <;> rw [GameTree.search, if_pos hemp]
    by_cases hw : g.whose_turn s = 0
    · simp only [GameTree.find_best_response, if_pos hw]
      rw [show g.alice_search g.fullFuel t s ⊥ ⊤ 0
        = (none, (g.generate_responses t s 0).2) from hnone true]
    · simp only [GameTree.find_best_response, if_neg hw]
      rw [show g.bob_search g.fullFuel t s ⊥ ⊤ 0
        = (none, (g.generate_responses t s 0).2) from hnone false]

/-- Concrete game for the C8 witness: constant static value 1, small modular
fingerprints, one root with two successors, depth bound 1. -/
def cw8G : GameTree Nat :=
  ⟨fun y => y % 7, fun _ => 0, fun _ => fv 1, fv 1000, fv (-1000),
   fun s d => if s = 0 ∧ d = 0 then [1, 2] else [], 1⟩

/-- Witness for C8: with successors at root 0 the driver returns a reply
(no assertion can fail), and at the childless root 5 it returns `None`. -/
theorem C8_no_reply_and_asserts_witness :
    (((cw8G.find_best_response cw2T 0).1 = none ↔ cw8G.response_generator 0 0 = []) ∧
      (cw8G.response_generator 0 0 ≠ [] →
        (cw8G.alice_search cw8G.fullFuel cw2T 0 ⊥ ⊤ 0).1.isSome ∧
        (cw8G.bob_search cw8G.fullFuel cw2T 0 ⊥ ⊤ 0).1.isSome)) ∧
    ((cw8G.find_best_response cw2T 5).1 = none ↔ cw8G.response_generator 5 0 = []) := by
  have hEv : ∀ y : Nat, cw8G.bob_wins_value ≤ cw8G.evaluate y ∧
      cw8G.evaluate y ≤ cw8G.alice_wins_value :=
    fun y => ⟨by show fv (-1000) ≤ fv 1; decide, by show fv 1 ≤ fv 1000; decide⟩
  have hfpv : ∀ y : Nat, cw8G.fingerprint y ≠ Entry.UNUSED := by
    intro y
    show y % 7 ≠ 2 ^ 64 - 1
    have h7 : y % 7 < 7 := Nat.mod_lt y (by omega)
    omega
  have hTok : GameTree.TableOk cw8G cw2T := by
    intro e he hlive
    exfalso
    apply hlive
    have he' : e = Entry.dflt := by
      simpa [cw2T, TranspositionTable.new, List.mem_replicate] using he
    rw [he']
    rfl
  have h0 := C8_no_reply_and_asserts cw8G cw2T 0 hEv hfpv hTok (by decide) (by decide)
  have h5 := C8_no_reply_and_asserts cw8G cw2T 5 hEv hfpv hTok (by decide) (by decide)
  exact ⟨⟨h0.1, h0.2.2.2⟩, h5.1⟩
